import Mathlib

/-! # Fixed-capacity slab allocator (`src/mempool.hpp`)

A shallow embedding of `struct SubPool` (its constructor, `Allocate` and
`Deallocate`) and of the constructor of `class MemPool`, which sorts the
requested chunk sizes, checks the memory budget and builds one `SubPool` per
size.  `MemPool` has no other member function besides its destructor, which
only prints the statistics of each slab.

Modelling conventions

* `uint32_t` values are natural numbers; every arithmetic operation the source
  performs on them is followed by an explicit reduction modulo `U32 = 2 ^ 32`.
* A `void*` is a `Ptr`: `none` is `nullptr`, and `some d` is the address lying
  `d` bytes after `&memory[0]` (`d` may be negative).  This is the quantity
  `reinterpret_cast<char*>(ptr) - &memory[0]` that `Deallocate` computes, and
  the index `i * chunk_size` that `Allocate` passes to `memory[...]`.
* An empty `std::vector<char>` (length `0`) has a null data pointer, so on a
  slab whose `memory` is empty `&memory[0]` is the null pointer: `Allocate`
  then hands out `nullptr` for offset `0`, and `Deallocate` takes the pointer
  `some 0` for `nullptr` as well.
* Only the length of `std::vector<char> memory` is kept (`memory_size`); the
  bytes themselves are never read or written by `SubPool`.
* `&memory[k]` is the data pointer of `memory` plus `k`, whether or not `k` is
  below `memory.size()`; C++ leaves the out-of-range case undefined.
* `ptrdiff_t` is a 64-bit signed type, so in `Deallocate` the `uint32_t`
  divisor is converted to it and the division is signed.
* `assert` is active: a failing assertion stops the call before any of the
  following statements run.
-/

/-- Modulus of `uint32_t` arithmetic. -/
def U32 : Nat := 4294967296

/-- A `void*` relative to `&memory[0]`; `none` is `nullptr`. -/
abbrev Ptr := Option Int

/-- The data members of `struct SubPool` (lines 10-18). -/
structure SubPool where
  /-- Member `uint32_t chunk_size`. -/
  chunk_size : Nat
  /-- Member `uint32_t chunk_count`. -/
  chunk_count : Nat
  /-- Length `memory.size()` of `std::vector<char> memory`. -/
  memory_size : Nat
  /-- Member `std::vector<bool> used_chunks`. -/
  used_chunks : List Bool
  /-- Member `uint32_t peak_usage`. -/
  peak_usage : Nat
  /-- Member `uint32_t unfreed_chunks`. -/
  unfreed_chunks : Nat
deriving DecidableEq, Repr

/-- Constructor `SubPool::SubPool(chunk_size, chunk_count)` (lines 21-22):
`memory(chunk_size * chunk_count)` multiplies two `uint32_t` values, and
`used_chunks(chunk_count, false)`; the statistics start at `0`. -/
def SubPool.ctor (chunk_size chunk_count : Nat) : SubPool :=
  { chunk_size := chunk_size
    chunk_count := chunk_count
    memory_size := (chunk_size * chunk_count) % U32
    used_chunks := List.replicate chunk_count false
    peak_usage := 0
    unfreed_chunks := 0 }

/-- The `uint32_t` expression `i * chunk_size` of line 39, the position in
`memory` of the chunk with index `i`. -/
def SubPool.chunkOffset (s : SubPool) (i : Nat) : Nat :=
  (i * s.chunk_size) % U32

/-- The pointer `&memory[k]`: the address `k` bytes after the data pointer of
`memory`.  When `memory` is empty that data pointer is null, so `&memory[0]` is
`nullptr`. -/
def SubPool.memoryAt (s : SubPool) (k : Nat) : Ptr :=
  if s.memory_size = 0 ∧ k = 0 then none else some (k : Int)

/-- The test `ptr == nullptr` of line 50.  On a slab whose `memory` is empty
the address `&memory[0]`, written `some 0`, is the null pointer too. -/
def SubPool.isNull (s : SubPool) : Ptr → Bool
  | none => true
  | some d => decide (s.memory_size = 0 ∧ d = 0)

/-- Body of the `if` of lines 31-40: chunk `i` is taken and
`&memory[i * chunk_size]` is returned. -/
def SubPool.take (s : SubPool) (i : Nat) : Ptr × SubPool :=
  (s.memoryAt (s.chunkOffset i),
   { s with
     used_chunks := s.used_chunks.set i true
     peak_usage := max s.peak_usage ((i + 1) % U32)
     unfreed_chunks := (s.unfreed_chunks + 1) % U32 })

/-- The test of line 30, `i < used_chunks.size() && !used_chunks[i]`. -/
def SubPool.isFree (s : SubPool) (i : Nat) : Bool :=
  i < s.used_chunks.length && !(s.used_chunks.getD i false)

/-- The `for` loop of lines 27-41 entered with loop variable `i`; `fuel`
bounds the number of iterations still allowed. -/
def SubPool.allocLoop (s : SubPool) : Nat → Nat → Ptr × SubPool
  | 0, _ => (none, s)
  | fuel + 1, i =>
    if i < s.chunk_count then
      if s.isFree i then
        s.take i
      else
        s.allocLoop fuel ((i + 1) % U32)
    else
      (none, s)

/-- Method `SubPool::Allocate()` (lines 25-44).  The loop variable starts at
`0` and the loop body runs at most `chunk_count` times. -/
def SubPool.Allocate (s : SubPool) : Ptr × SubPool :=
  s.allocLoop s.chunk_count 0

/-- How a call of `SubPool::Deallocate` ends. -/
inductive DeallocStatus where
  /-- The call returned. -/
  | ok
  /-- The check `assert(index < chunk_count)` of line 57 failed. -/
  | assert_index
  /-- The check `assert(used_chunks[index])` of line 59 failed. -/
  | assert_used
  /-- The division of line 55 has divisor `chunk_size = 0`. -/
  | div_by_zero
deriving DecidableEq, Repr

/-- The `uint32_t index` of line 55 for a pointer `d` bytes after `&memory[0]`:
the signed quotient `d / chunk_size` (rounded toward zero) converted to
`uint32_t`.  There is no index when `chunk_size = 0`. -/
def SubPool.ptrIndex (s : SubPool) (d : Int) : Option Nat :=
  if s.chunk_size = 0 then none
  else some ((Int.tdiv d (s.chunk_size : Int)) % (U32 : Int)).toNat

/-- Lines 54-63 of `SubPool::Deallocate`, reached with a non-null pointer `d`
bytes after `&memory[0]`.  The state in the result is the slab when the call
ends, also when it ends in a failed assertion.  Reading `used_chunks[index]`
past the end of the bitmap, which cannot happen while the bitmap has its
`chunk_count` entries, is taken to read `false`. -/
def SubPool.release (s : SubPool) (d : Int) : DeallocStatus × SubPool :=
  match s.ptrIndex d with
  | none => (DeallocStatus.div_by_zero, s)
  | some index =>
    if index < s.chunk_count then
      if s.used_chunks.getD index false then
        (DeallocStatus.ok,
         { s with
           unfreed_chunks := (s.unfreed_chunks + (U32 - 1)) % U32
           used_chunks := s.used_chunks.set index false })
      else (DeallocStatus.assert_used, s)
    else (DeallocStatus.assert_index, s)

/-- Method `SubPool::Deallocate(ptr)` (lines 47-64): a null pointer returns at
once (lines 50-53), any other pointer goes on to lines 54-63. -/
def SubPool.Deallocate (s : SubPool) (ptr : Ptr) : DeallocStatus × SubPool :=
  match ptr with
  | none => (DeallocStatus.ok, s)
  | some d => if s.isNull (some d) then (DeallocStatus.ok, s) else s.release d

/-- Results of `k` consecutive `Allocate()` calls, in call order. -/
def SubPool.allocSeq (s : SubPool) : Nat → List Ptr
  | 0 => []
  | k + 1 => s.Allocate.1 :: s.Allocate.2.allocSeq k

/-- The slab after `k` consecutive `Allocate()` calls. -/
def SubPool.allocIter (s : SubPool) : Nat → SubPool
  | 0 => s
  | k + 1 => s.Allocate.2.allocIter k

/-- A call on a slab. -/
inductive Op where
  /-- A call `Allocate()`. -/
  | alloc
  /-- A call `Deallocate(ptr)`. -/
  | dealloc (ptr : Ptr)
deriving DecidableEq, Repr

/-- The slab after one call; `none` when the call ends in a failed assertion
(or an undefined division). -/
def SubPool.step (s : SubPool) : Op → Option SubPool
  | Op.alloc => some s.Allocate.2
  | Op.dealloc ptr =>
    match s.Deallocate ptr with
    | (DeallocStatus.ok, t) => some t
    | _ => none

/-- The slab when one call ends, whether it returned or stopped at a failed
assertion. -/
def SubPool.after (s : SubPool) : Op → SubPool
  | Op.alloc => s.Allocate.2
  | Op.dealloc ptr => (s.Deallocate ptr).2

/-- The slab after a sequence of calls all of which return. -/
def SubPool.run (s : SubPool) : List Op → Option SubPool
  | [] => some s
  | op :: ops => (s.step op).bind (fun t => t.run ops)

/-- The member values a `SubPool` object can hold: the `uint32_t` member
`chunk_count` is below `2 ^ 32`, the bitmap has the `chunk_count` entries the constructor gave
it (no method resizes it), and `unfreed_chunks` counts the set bits. -/
structure SubPool.WF (s : SubPool) : Prop where
  count_lt : s.chunk_count < U32
  length_eq : s.used_chunks.length = s.chunk_count
  live_eq : s.unfreed_chunks = s.used_chunks.count true

/-- A slab of three 4-byte chunks in which chunks 0 and 2 are occupied. -/
def SubPool.sample : SubPool :=
  { chunk_size := 4
    chunk_count := 3
    memory_size := 12
    used_chunks := [true, false, true]
    peak_usage := 3
    unfreed_chunks := 2 }

/-- Two `Allocate()` calls followed by `Deallocate` of the first chunk. -/
def SubPool.sampleOps : List Op :=
  [Op.alloc, Op.alloc, Op.dealloc (some 0)]

/-- The slab `SubPool(4, 3)` after `sampleOps`. -/
def SubPool.sampleRun : SubPool :=
  { chunk_size := 4
    chunk_count := 3
    memory_size := 12
    used_chunks := [false, true, false]
    peak_usage := 2
    unfreed_chunks := 1 }

/-- The slab and the largest value `unfreed_chunks` has taken so far, after a
sequence of calls all of which return; `m` is the largest value before the
sequence starts. -/
def SubPool.runMax (s : SubPool) (m : Nat) : List Op → Option (SubPool × Nat)
  | [] => some (s, m)
  | op :: ops =>
    match s.step op with
    | none => none
    | some t => t.runMax (max m t.unfreed_chunks) ops

/-- The data members of `class MemPool` (lines 112-116).  The buffer
`std::unique_ptr<char[]> memory` of `max_memory` bytes is never read or
written and is not kept. -/
structure MemPool where
  /-- Member `uint32_t max_memory_`. -/
  max_memory_ : Nat
  /-- Member `uint32_t alignment_`. -/
  alignment_ : Nat
  /-- Member `std::vector<uint32_t> chunk_sizes_`. -/
  chunk_sizes_ : List Nat
  /-- Member `std::vector<SubPool> sub_pools_`. -/
  sub_pools_ : List SubPool
deriving DecidableEq, Repr

/-- How the constructor `MemPool::MemPool` ends. -/
inductive MemPool.CtorResult where
  /-- The constructor returned and the pool exists. -/
  | ok (pool : MemPool)
  /-- The check `assert(total_memory <= max_memory)` of line 86 failed. -/
  | assert_total
  /-- The division of line 94 has divisor `chunk_size = 0`. -/
  | div_by_zero
deriving DecidableEq, Repr

/-- The pool a construction produced, if it produced one. -/
def MemPool.CtorResult.pool? : MemPool.CtorResult → Option MemPool
  | MemPool.CtorResult.ok pool => some pool
  | _ => none

/-- The call `std::sort(chunk_sizes_.begin(), chunk_sizes_.end())` of line 76:
the ascending arrangement of the values, computed here by insertion. -/
def MemPool.sortSizes (chunk_sizes : List Nat) : List Nat :=
  chunk_sizes.insertionSort (fun a b => a ≤ b)

/-- The loop of lines 79-83: `total_memory += chunk_size * alignment` in
`uint32_t`, starting from `total_memory`. -/
def MemPool.totalMemory (alignment : Nat) (total_memory : Nat) : List Nat → Nat
  | [] => total_memory
  | chunk_size :: rest =>
    MemPool.totalMemory alignment ((total_memory + (chunk_size * alignment) % U32) % U32) rest

/-- The loop of lines 92-97 entered with the running `offset`: each slab is
built by `sub_pools_.emplace_back(chunk_size, chunk_count)` and is paired here
with the value `offset` has when it is built.  The `uint32_t` difference
`max_memory - offset` is `(max_memory + U32 - offset) % U32`; a divisor
`chunk_size = 0` ends the loop without a result. -/
def MemPool.partition (max_memory : Nat) : List Nat → Nat → Option (List (Nat × SubPool))
  | [], _ => some []
  | chunk_size :: rest, offset =>
    if chunk_size = 0 then none
    else
      let chunk_count := ((max_memory + U32 - offset) % U32) / chunk_size
      (MemPool.partition max_memory rest ((offset + (chunk_count * chunk_size) % U32) % U32)).map
        (fun built => (offset, SubPool.ctor chunk_size chunk_count) :: built)

/-- Constructor `MemPool::MemPool(max_memory, alignment, chunk_sizes)`
(lines 70-98): sort, sum and check, then partition from `offset = 0`. -/
def MemPool.ctor (max_memory alignment : Nat) (chunk_sizes : List Nat) : MemPool.CtorResult :=
  if MemPool.totalMemory alignment 0 (MemPool.sortSizes chunk_sizes) ≤ max_memory then
    match MemPool.partition max_memory (MemPool.sortSizes chunk_sizes) 0 with
    | none => MemPool.CtorResult.div_by_zero
    | some built =>
      MemPool.CtorResult.ok
        { max_memory_ := max_memory
          alignment_ := alignment
          chunk_sizes_ := MemPool.sortSizes chunk_sizes
          sub_pools_ := built.map Prod.snd }
  else MemPool.CtorResult.assert_total

/-- End of the region of a slab built at `offset`: `offset` plus the exact
product `chunk_size * chunk_count`. -/
def MemPool.regionEnd (r : Nat × SubPool) : Nat :=
  r.1 + r.2.chunk_size * r.2.chunk_count

/-- The pool `MemPool(4096, 4, {256, 16, 64})` as the constructor leaves it. -/
def MemPool.samplePool : MemPool :=
  { max_memory_ := 4096
    alignment_ := 4
    chunk_sizes_ := [16, 64, 256]
    sub_pools_ := [SubPool.ctor 16 256, SubPool.ctor 64 0, SubPool.ctor 256 0] }

/-- The slabs of `samplePool` with the offsets at which they are built. -/
def MemPool.sampleBuilt : List (Nat × SubPool) :=
  [(0, SubPool.ctor 16 256), (4096, SubPool.ctor 64 0), (4096, SubPool.ctor 256 0)]

/-! ## The occupancy bitmap -/

theorem Bitmap.count_set_true (l : List Bool) (i : Nat) (h : l[i]? = some false) :
    (l.set i true).count true = l.count true + 1 := by
  have hi : i < l.length := by
    by_contra hc
    rw [List.getElem?_eq_none (by omega)] at h
    cases h
  rw [List.getElem?_eq_getElem hi] at h
  have h2 : l[i] = false := by injection h
  rw [List.count_set _ _ _ _ hi, h2]
  simp

theorem Bitmap.count_set_false (l : List Bool) (i : Nat) (h : l[i]? = some true) :
    (l.set i false).count true + 1 = l.count true := by
  have hi : i < l.length := by
    by_contra hc
    rw [List.getElem?_eq_none (by omega)] at h
    cases h
  rw [List.getElem?_eq_getElem hi] at h
  have h2 : l[i] = true := by injection h
  have hmem : true ∈ l := by
    rw [← h2]; exact List.getElem_mem hi
  have hpos : 0 < l.count true := List.count_pos_iff.2 hmem
  rw [List.count_set _ _ _ _ hi, h2]
  simp
  omega

theorem Bitmap.count_lt_length (l : List Bool) (i : Nat) (h : l[i]? = some false) :
    l.count true < l.length := by
  have h1 := Bitmap.count_set_true l i h
  have h2 : (l.set i true).count true ≤ (l.set i true).length := List.count_le_length _ _
  rw [List.length_set] at h2
  omega

theorem Bitmap.getElem?_set (l : List Bool) (i : Nat) (b : Bool) (hi : i < l.length)
    (j : Nat) : (l.set i b)[j]? = if j = i then some b else l[j]? := by
  rw [List.getElem?_set]
  by_cases hji : j = i
  · subst hji
    simp [hi]
  · have : ¬ i = j := fun e => hji e.symm
    simp [hji, this]

theorem Bitmap.lt_length_of_getElem? (l : List Bool) (i : Nat) (b : Bool)
    (h : l[i]? = some b) : i < l.length := by
  by_contra hc
  rw [List.getElem?_eq_none (by omega)] at h
  cases h

/-! ## The allocation scan -/

theorem SubPool.isFree_iff (s : SubPool) (k : Nat) :
    s.isFree k = true ↔ s.used_chunks[k]? = some false := by
  unfold SubPool.isFree
  rw [List.getD_eq_getElem?_getD]
  by_cases hk : k < s.used_chunks.length
  · rw [List.getElem?_eq_getElem hk]
    cases s.used_chunks[k] <;> simp [hk]
  · rw [List.getElem?_eq_none (by omega)]
    simp [hk]

theorem SubPool.isFree_eq_false_iff (s : SubPool) (k : Nat) (hk : k < s.used_chunks.length) :
    s.isFree k = false ↔ s.used_chunks[k]? = some true := by
  unfold SubPool.isFree
  rw [List.getD_eq_getElem?_getD, List.getElem?_eq_getElem hk]
  cases s.used_chunks[k] <;> simp [hk]

theorem SubPool.allocLoop_found (s : SubPool) (hc : s.chunk_count < U32) (j : Nat)
    (hj : j < s.chunk_count) (hfree : s.isFree j = true) :
    ∀ fuel i, i ≤ j → j < fuel + i → (∀ k, i ≤ k → k < j → s.isFree k = false) →
      s.allocLoop fuel i = s.take j := by
  intro fuel
  induction fuel with
  | zero => intro i h1 h2; omega
  | succ fuel ih =>
    intro i h1 h2 hlow
    unfold SubPool.allocLoop
    have hi : i < s.chunk_count := by omega
    rw [if_pos hi]
    by_cases hij : i = j
    · subst hij
      rw [if_pos hfree]
    · have hnot := hlow i (le_refl i) (by omega)
      rw [if_neg (by simp [hnot])]
      have hmod : (i + 1) % U32 = i + 1 := Nat.mod_eq_of_lt (by omega)
      rw [hmod]
      exact ih (i + 1) (by omega) (by omega) (fun k hk1 hk2 => hlow k (by omega) hk2)

theorem SubPool.allocLoop_none (s : SubPool) (hc : s.chunk_count < U32) :
    ∀ fuel i, (∀ k, i ≤ k → k < s.chunk_count → s.isFree k = false) →
      s.allocLoop fuel i = (none, s) := by
  intro fuel
  induction fuel with
  | zero => intro i _; rfl
  | succ fuel ih =>
    intro i hall
    unfold SubPool.allocLoop
    by_cases hi : i < s.chunk_count
    · rw [if_pos hi, if_neg (by simp [hall i (le_refl i) hi])]
      have hmod : (i + 1) % U32 = i + 1 := Nat.mod_eq_of_lt (by omega)
      rw [hmod]
      exact ih (i + 1) (fun k hk1 hk2 => hall k (by omega) hk2)
    · rw [if_neg hi]

/-- The two ways `Allocate()` ends on a well-formed slab: either every chunk is
occupied and nothing changes, or the lowest free chunk is taken. -/
theorem SubPool.Allocate_cases (s : SubPool) (h : s.WF) :
    ((∀ k, k < s.chunk_count → s.used_chunks[k]? = some true) ∧ s.Allocate = (none, s)) ∨
    (∃ i, i < s.chunk_count ∧ s.used_chunks[i]? = some false ∧
      (∀ j, j < i → s.used_chunks[j]? = some true) ∧ s.Allocate = s.take i) := by
  by_cases hex : ∃ k, k < s.chunk_count ∧ s.isFree k = true
  · right
    classical
    refine ⟨Nat.find hex, (Nat.find_spec hex).1, (s.isFree_iff _).1 (Nat.find_spec hex).2, ?_, ?_⟩
    · intro j hj
      have hjc : j < s.chunk_count := lt_trans hj (Nat.find_spec hex).1
      have hmin := Nat.find_min hex hj
      rw [← s.isFree_eq_false_iff j (by rw [h.length_eq]; exact hjc)]
      cases hf : s.isFree j
      · rfl
      · exact absurd ⟨hjc, hf⟩ hmin
    · unfold SubPool.Allocate
      apply s.allocLoop_found h.count_lt _ (Nat.find_spec hex).1 (Nat.find_spec hex).2
      · exact Nat.zero_le _
      · have := (Nat.find_spec hex).1
        omega
      · intro k _ hk
        have hmin := Nat.find_min hex hk
        cases hf : s.isFree k
        · rfl
        · exact absurd ⟨lt_trans hk (Nat.find_spec hex).1, hf⟩ hmin
  · left
    have hall : ∀ k, k < s.chunk_count → s.isFree k = false := by
      intro k hk
      cases hf : s.isFree k
      · rfl
      · exact absurd ⟨k, hk, hf⟩ hex
    refine ⟨?_, ?_⟩
    · intro k hk
      rw [← s.isFree_eq_false_iff k (by rw [h.length_eq]; exact hk)]
      exact hall k hk
    · unfold SubPool.Allocate
      exact s.allocLoop_none h.count_lt _ _ (fun k _ hk => hall k hk)

/-! ## Well-formedness is preserved -/

theorem SubPool.ctor_WF (c n : Nat) (hn : n < U32) : (SubPool.ctor c n).WF := by
  refine ⟨hn, ?_, ?_⟩
  · simp [SubPool.ctor]
  · simp [SubPool.ctor, List.count_replicate]

/-- The members after chunk `i`, free before, is taken. -/
theorem SubPool.take_eq (s : SubPool) (h : s.WF) (i : Nat) (hi : i < s.chunk_count)
    (hfree : s.used_chunks[i]? = some false) :
    s.take i = (s.memoryAt (s.chunkOffset i),
      { s with
        used_chunks := s.used_chunks.set i true
        peak_usage := max s.peak_usage (i + 1)
        unfreed_chunks := s.unfreed_chunks + 1 }) := by
  have hlt := Bitmap.count_lt_length s.used_chunks i hfree
  have h1 : (i + 1) % U32 = i + 1 := Nat.mod_eq_of_lt (by have := h.count_lt; omega)
  have h2 : (s.unfreed_chunks + 1) % U32 = s.unfreed_chunks + 1 :=
    Nat.mod_eq_of_lt (by have := h.count_lt; have := h.length_eq; have := h.live_eq; omega)
  unfold SubPool.take
  rw [h1, h2]

theorem SubPool.take_WF (s : SubPool) (h : s.WF) (i : Nat) (hi : i < s.chunk_count)
    (hfree : s.used_chunks[i]? = some false) : (s.take i).2.WF := by
  rw [s.take_eq h i hi hfree]
  refine ⟨h.count_lt, ?_, ?_⟩
  · simp [h.length_eq]
  · simp only
    rw [Bitmap.count_set_true _ _ hfree, h.live_eq]

theorem SubPool.Allocate_WF (s : SubPool) (h : s.WF) : s.Allocate.2.WF := by
  rcases s.Allocate_cases h with ⟨_, he⟩ | ⟨i, hi, hfree, _, he⟩
  · rw [he]; exact h
  · rw [he]; exact s.take_WF h i hi hfree

theorem SubPool.isNull_of_memory (s : SubPool) (d : Int) (hmem : 0 < s.memory_size) :
    s.isNull (some d) = false := by
  simp only [SubPool.isNull, decide_eq_false_iff_not]
  omega

theorem SubPool.isNull_of_ne_zero (s : SubPool) (d : Int) (hd : d ≠ 0) :
    s.isNull (some d) = false := by
  simp only [SubPool.isNull, decide_eq_false_iff_not]
  omega

theorem SubPool.memoryAt_of_memory (s : SubPool) (k : Nat) (hmem : 0 < s.memory_size) :
    s.memoryAt k = some (k : Int) := by
  unfold SubPool.memoryAt
  rw [if_neg (by omega)]

theorem SubPool.Deallocate_of_null (s : SubPool) (p : Ptr) (hn : s.isNull p = true) :
    s.Deallocate p = (DeallocStatus.ok, s) := by
  cases p with
  | none => rfl
  | some d =>
    unfold SubPool.Deallocate
    simp only [hn, if_true]

theorem SubPool.Deallocate_of_not_null (s : SubPool) (d : Int)
    (hnn : s.isNull (some d) = false) : s.Deallocate (some d) = s.release d := by
  unfold SubPool.Deallocate
  simp only [hnn]
  rfl

/-- A non-null pointer whose chunk is marked occupied is accepted by
`Deallocate`: the bit of that chunk is cleared and the live counter goes down
by one. -/
theorem SubPool.Deallocate_occupied (s : SubPool) (h : s.WF) (d : Int) (idx : Nat)
    (hnn : s.isNull (some d) = false)
    (hidx : s.ptrIndex d = some idx) (hocc : s.used_chunks[idx]? = some true) :
    s.unfreed_chunks = (s.unfreed_chunks - 1) + 1 ∧
    s.Deallocate (some d) = (DeallocStatus.ok,
      { s with
        unfreed_chunks := s.unfreed_chunks - 1
        used_chunks := s.used_chunks.set idx false }) := by
  have hlen := Bitmap.lt_length_of_getElem? _ _ _ hocc
  have hcnt := Bitmap.count_set_false _ _ hocc
  have hle : s.used_chunks.count true ≤ s.used_chunks.length := List.count_le_length _ _
  have hpos : 1 ≤ s.unfreed_chunks := by rw [h.live_eq]; omega
  have hlt : s.unfreed_chunks < U32 := by
    have := h.count_lt; have := h.length_eq; have := h.live_eq; omega
  have hget : s.used_chunks.getD idx false = true := by
    rw [List.getD_eq_getElem?_getD, hocc]; rfl
  have hmod : (s.unfreed_chunks + (U32 - 1)) % U32 = s.unfreed_chunks - 1 := by
    have e : s.unfreed_chunks + (U32 - 1) = (s.unfreed_chunks - 1) + U32 := by
      have : 0 < U32 := by unfold U32; omega
      omega
    rw [e, Nat.add_mod_right]
    exact Nat.mod_eq_of_lt (by omega)
  refine ⟨by omega, ?_⟩
  rw [s.Deallocate_of_not_null d hnn]
  unfold SubPool.release
  simp only [hidx]
  rw [if_pos (by rw [← h.length_eq]; exact hlen), if_pos hget, hmod]

/-- A non-null pointer whose chunk index is out of range, or whose chunk is not
marked occupied, fails an assertion before anything is written. -/
theorem SubPool.Deallocate_refused (s : SubPool) (d : Int) (idx : Nat)
    (hnn : s.isNull (some d) = false)
    (hidx : s.ptrIndex d = some idx)
    (hbad : s.chunk_count ≤ idx ∨ s.used_chunks[idx]? ≠ some true) :
    s.Deallocate (some d) =
      (if idx < s.chunk_count then DeallocStatus.assert_used else DeallocStatus.assert_index, s) := by
  rw [s.Deallocate_of_not_null d hnn]
  unfold SubPool.release
  simp only [hidx]
  by_cases hlt : idx < s.chunk_count
  · have hne : s.used_chunks[idx]? ≠ some true := by
      rcases hbad with hb | hb
      · omega
      · exact hb
    have hget : ¬ s.used_chunks.getD idx false = true := by
      rw [List.getD_eq_getElem?_getD]
      intro hg
      apply hne
      cases hq : s.used_chunks[idx]? with
      | none => rw [hq] at hg; cases hg
      | some b => rw [hq] at hg; simp at hg; rw [hg]
    rw [if_pos hlt, if_neg hget, if_pos hlt]
  · rw [if_neg hlt, if_neg hlt]

/-- The two ways `Deallocate` ends on a well-formed slab: either nothing is
written (null pointer, failed assertion or undefined division), or the pointer
is non-null, its chunk is occupied, and exactly that chunk is released. -/
theorem SubPool.Deallocate_cases (s : SubPool) (h : s.WF) (p : Ptr) :
    (s.Deallocate p).2 = s ∨
    ∃ d idx, p = some d ∧ s.isNull (some d) = false ∧ s.ptrIndex d = some idx ∧
      s.used_chunks[idx]? = some true ∧
      s.unfreed_chunks = (s.unfreed_chunks - 1) + 1 ∧
      s.Deallocate p = (DeallocStatus.ok,
        { s with
          unfreed_chunks := s.unfreed_chunks - 1
          used_chunks := s.used_chunks.set idx false }) := by
  cases p with
  | none => left; rfl
  | some d =>
    cases hn : s.isNull (some d) with
    | true => left; rw [s.Deallocate_of_null _ hn]
    | false =>
      cases hidx : s.ptrIndex d with
      | none =>
        left
        rw [s.Deallocate_of_not_null d hn]
        unfold SubPool.release
        simp only [hidx]
      | some idx =>
        by_cases hocc : s.used_chunks[idx]? = some true
        · right
          obtain ⟨hone, he⟩ := s.Deallocate_occupied h d idx hn hidx hocc
          exact ⟨d, idx, rfl, hn, hidx, hocc, hone, he⟩
        · left
          rw [s.Deallocate_refused d idx hn hidx (Or.inr hocc)]

theorem SubPool.Deallocate_WF (s : SubPool) (h : s.WF) (p : Ptr) : (s.Deallocate p).2.WF := by
  rcases s.Deallocate_cases h p with he | ⟨d, idx, _, _, _, hocc, _, he⟩
  · rw [he]; exact h
  · rw [he]
    have hlen := Bitmap.lt_length_of_getElem? _ _ _ hocc
    have hcnt := Bitmap.count_set_false _ _ hocc
    refine ⟨h.count_lt, ?_, ?_⟩
    · simp [h.length_eq]
    · simp only
      rw [h.live_eq]
      omega

theorem SubPool.sample_WF : SubPool.sample.WF :=
  ⟨by decide, by decide, by decide⟩

/-! ## `Allocate` on a single state -/

/-- On every well-formed slab state with at least one free chunk, `Allocate()`
picks the lowest index `i` whose occupancy bit is false, returns
`&memory[i * chunk_size]` with the `uint32_t` product of line 39, sets exactly
bit `i`, sets `peak_usage` to `max peak_usage (i + 1)`, adds exactly one to
`unfreed_chunks` and leaves the other members alone.  When `memory` is not
empty and `chunk_size * chunk_count` fits in 32 bits, the returned address is
at the exact byte offset `i * chunk_size`. -/
theorem SubPool.Allocate_lowest_free (s : SubPool) (h : s.WF)
    (hfree : ∃ k, k < s.chunk_count ∧ s.used_chunks[k]? = some false) :
    ∃ i, i < s.chunk_count ∧ s.used_chunks[i]? = some false ∧
      (∀ j, j < i → s.used_chunks[j]? = some true) ∧
      s.Allocate.1 = s.memoryAt ((i * s.chunk_size) % U32) ∧
      (0 < s.memory_size → s.chunk_size * s.chunk_count ≤ U32 →
        s.Allocate.1 = some ((i * s.chunk_size : Nat) : Int)) ∧
      (∀ j, s.Allocate.2.used_chunks[j]? = if j = i then some true else s.used_chunks[j]?) ∧
      s.Allocate.2.peak_usage = max s.peak_usage (i + 1) ∧
      s.Allocate.2.unfreed_chunks = s.unfreed_chunks + 1 ∧
      s.Allocate.2.chunk_size = s.chunk_size ∧
      s.Allocate.2.chunk_count = s.chunk_count ∧
      s.Allocate.2.memory_size = s.memory_size := by
  rcases s.Allocate_cases h with ⟨hall, _⟩ | ⟨i, hi, hfi, hlow, he⟩
  · obtain ⟨k, hk, hkf⟩ := hfree
    rw [hall k hk] at hkf
    cases hkf
  · rw [s.take_eq h i hi hfi] at he
    have hlen := Bitmap.lt_length_of_getElem? _ _ _ hfi
    refine ⟨i, hi, hfi, hlow, ?_, ?_, ?_, ?_, ?_, ?_, ?_, ?_⟩
    · rw [he]; rfl
    · intro hmem hfit
      rw [he]
      simp only [SubPool.chunkOffset]
      have hmod : (i * s.chunk_size) % U32 = i * s.chunk_size := by
        apply Nat.mod_eq_of_lt
        rcases Nat.eq_zero_or_pos s.chunk_size with hz | hp
        · rw [hz]; unfold U32; omega
        · calc i * s.chunk_size < s.chunk_count * s.chunk_size :=
                Nat.mul_lt_mul_of_pos_right hi hp
            _ = s.chunk_size * s.chunk_count := Nat.mul_comm _ _
            _ ≤ U32 := hfit
      rw [hmod, s.memoryAt_of_memory _ hmem]
    · intro j
      rw [he]
      exact Bitmap.getElem?_set _ _ _ hlen j
    · rw [he]
    · rw [he]
    · rw [he]
    · rw [he]
    · rw [he]

/-- C2 (evaluation at the failing input): on the slab `SubPool(2147483648, 3)`
after two `Allocate()` calls the lowest free chunk is chunk 2, whose byte
offset from the region start is `2 * 2147483648 = 4294967296`; the `uint32_t`
product of line 39 wraps and `Allocate()` returns offset `0`, the address of
the occupied chunk 0. -/
theorem SubPool.Allocate_offset_wraps :
    ((SubPool.ctor 2147483648 3).allocIter 2).used_chunks = [true, true, false] ∧
    ((SubPool.ctor 2147483648 3).allocIter 2).chunk_size = 2147483648 ∧
    ((SubPool.ctor 2147483648 3).allocIter 2).memory_size = 2147483648 ∧
    ((SubPool.ctor 2147483648 3).allocIter 2).Allocate.1 = some 0 ∧
    ((SubPool.ctor 2147483648 3).allocIter 2).Allocate.2.used_chunks = [true, true, true] ∧
    (2 * 2147483648 : Nat) ≠ 0 := by
  refine ⟨by decide, by decide, by decide, by decide, by decide, by decide⟩

/-- On every well-formed slab state whose `memory` is not empty, `Allocate()`
returns `nullptr` exactly when each of the `chunk_count` chunks is marked
occupied, and then the slab is unchanged. -/
theorem SubPool.Allocate_null_iff_of_memory (s : SubPool) (h : s.WF)
    (hmem : 0 < s.memory_size) :
    (s.Allocate.1 = none ↔ ∀ k, k < s.chunk_count → s.used_chunks[k]? = some true) ∧
    (s.Allocate.1 = none → s.Allocate.2 = s) := by
  rcases s.Allocate_cases h with ⟨hall, he⟩ | ⟨i, hi, hfi, _, he⟩
  · rw [he]
    exact ⟨⟨fun _ => hall, fun _ => rfl⟩, fun _ => rfl⟩
  · rw [he]
    have hsome : (s.take i).1 = some (s.chunkOffset i : Int) := by
      simp only [SubPool.take]
      exact s.memoryAt_of_memory _ hmem
    refine ⟨⟨fun hn => ?_, fun hall => ?_⟩, fun hn => ?_⟩
    · rw [hsome] at hn; cases hn
    · rw [hall i hi] at hfi
      cases hfi
    · rw [hsome] at hn; cases hn

/-- C3 (evaluation at the failing input): on the fresh slab
`SubPool(2147483648, 2)` the constructor's `uint32_t` product wraps to `0`, so
`memory` is empty and `&memory[0]` is the null pointer; the first `Allocate()`
returns `nullptr` although both chunks are free, and it has marked chunk 0
occupied and raised `peak_usage` and `unfreed_chunks`. -/
theorem SubPool.Allocate_null_with_free_chunk :
    (SubPool.ctor 2147483648 2).memory_size = 0 ∧
    (SubPool.ctor 2147483648 2).used_chunks = [false, false] ∧
    (SubPool.ctor 2147483648 2).Allocate =
      (none,
       { chunk_size := 2147483648
         chunk_count := 2
         memory_size := 0
         used_chunks := [true, false]
         peak_usage := 1
         unfreed_chunks := 1 }) ∧
    (SubPool.ctor 2147483648 2).Allocate.2 ≠ SubPool.ctor 2147483648 2 := by
  refine ⟨by decide, by decide, by decide, by decide⟩

/-! ## `Deallocate` on a single state -/

/-- Without wrap-around the address `Allocate()` returns for chunk `i` is
mapped back to `i` by the index computation of `Deallocate`. -/
theorem SubPool.ptrIndex_chunkOffset (s : SubPool) (i : Nat) (hpos : 0 < s.chunk_size)
    (hfit : i * s.chunk_size < U32) :
    s.ptrIndex (s.chunkOffset i : Int) = some i := by
  have hi : i < U32 := lt_of_le_of_lt (Nat.le_mul_of_pos_right i hpos) hfit
  unfold SubPool.ptrIndex SubPool.chunkOffset
  rw [if_neg (by omega), Nat.mod_eq_of_lt hfit]
  congr 1
  have h1 : Int.tdiv ((i * s.chunk_size : Nat) : Int) (s.chunk_size : Int) = (i : Int) := by
    rw [← Int.ofNat_tdiv, Nat.mul_div_cancel _ hpos]
  rw [h1]
  have h2 : ((i : Int) % (U32 : Int)) = ((i % U32 : Nat) : Int) := by
    norm_cast
  rw [h2, Nat.mod_eq_of_lt hi]
  rfl

/-- When `memory` is not empty and the address of chunk `i` is computed without
wrap-around, `Deallocate` of that address, for an occupied chunk `i`, returns
normally, clears exactly bit `i` and lowers `unfreed_chunks` by one. -/
theorem SubPool.Deallocate_chunk_address_of_fit (s : SubPool) (h : s.WF)
    (hmem : 0 < s.memory_size) (hpos : 0 < s.chunk_size) (i : Nat)
    (hfit : i * s.chunk_size < U32) (hocc : s.used_chunks[i]? = some true) :
    s.unfreed_chunks = (s.unfreed_chunks - 1) + 1 ∧
    s.Deallocate (s.memoryAt (s.chunkOffset i)) = (DeallocStatus.ok,
      { s with
        unfreed_chunks := s.unfreed_chunks - 1
        used_chunks := s.used_chunks.set i false }) := by
  rw [s.memoryAt_of_memory _ hmem]
  exact s.Deallocate_occupied h _ i (s.isNull_of_memory _ hmem)
    (s.ptrIndex_chunkOffset i hpos hfit) hocc

/-- C4 (evaluation at the failing input): on the slab `SubPool(3221225472, 3)`
three `Allocate()` calls return the offsets `0`, `3221225472` and the wrapped
`2147483648` (chunk 2).  After `Deallocate` of the first address, chunk 2 is
still marked occupied, but `Deallocate` of its address computes index
`2147483648 / 3221225472 = 0`, finds chunk 0 free and stops at the assertion of
line 59 with nothing freed. -/
theorem SubPool.Deallocate_wrapped_address_refused :
    (SubPool.ctor 3221225472 3).allocSeq 3 = [some 0, some 3221225472, some 2147483648] ∧
    (((SubPool.ctor 3221225472 3).allocIter 3).Deallocate (some 0)).1 = DeallocStatus.ok ∧
    (((SubPool.ctor 3221225472 3).allocIter 3).Deallocate (some 0)).2.used_chunks
      = [false, true, true] ∧
    (((SubPool.ctor 3221225472 3).allocIter 3).Deallocate (some 0)).2.ptrIndex 2147483648
      = some 0 ∧
    (((SubPool.ctor 3221225472 3).allocIter 3).Deallocate (some 0)).2.Deallocate
        (some 2147483648)
      = (DeallocStatus.assert_used,
         (((SubPool.ctor 3221225472 3).allocIter 3).Deallocate (some 0)).2) := by
  refine ⟨by decide, by decide, by decide, by decide, by decide⟩

/-- C5: for every slab state and every non-null pointer `p` whose computed
index `(p - region.start) / chunk_size` is `>= chunk_count`, or names a chunk
that is not marked occupied, `Deallocate(p)` stops at a failed assertion
(line 57 in the first case, line 59 in the second) with every member
unchanged.  In particular a second `Deallocate(p)` right after a successful one
fails (double free), and on a freshly constructed slab, where no chunk was ever
allocated, every `Deallocate(p)` with non-null `p` fails.  Non-null is the
test of line 50: on a slab whose `memory` is empty the address `&memory[0]` is
itself the null pointer. -/
theorem SubPool.Deallocate_rejects (s : SubPool) (d : Int) :
    (∀ idx, s.isNull (some d) = false → s.ptrIndex d = some idx →
      (s.chunk_count ≤ idx ∨ s.used_chunks[idx]? ≠ some true) →
      s.Deallocate (some d) =
        (if idx < s.chunk_count then DeallocStatus.assert_used
          else DeallocStatus.assert_index, s)) ∧
    (∀ t, s.isNull (some d) = false → s.Deallocate (some d) = (DeallocStatus.ok, t) →
      t.Deallocate (some d) = (DeallocStatus.assert_used, t)) ∧
    (∀ c n idx, (SubPool.ctor c n).isNull (some d) = false →
      (SubPool.ctor c n).ptrIndex d = some idx →
      (SubPool.ctor c n).Deallocate (some d) =
        (if idx < n then DeallocStatus.assert_used
          else DeallocStatus.assert_index, SubPool.ctor c n)) := by
  refine ⟨fun idx hnn hidx hbad => s.Deallocate_refused d idx hnn hidx hbad, ?_, ?_⟩
  · intro t hnn hok
    rw [s.Deallocate_of_not_null d hnn] at hok
    cases hidx : s.ptrIndex d with
    | none =>
      unfold SubPool.release at hok
      simp only [hidx] at hok
      cases hok
    | some idx =>
      unfold SubPool.release at hok
      simp only [hidx] at hok
      by_cases hlt : idx < s.chunk_count
      · rw [if_pos hlt] at hok
        by_cases hget : s.used_chunks.getD idx false = true
        · rw [if_pos hget] at hok
          injection hok with _ ht
          subst ht
          have hlen : idx < s.used_chunks.length := by
            by_contra hc
            rw [List.getD_eq_getElem?_getD, List.getElem?_eq_none (by omega)] at hget
            cases hget
          have hidx2 : SubPool.ptrIndex
              { s with
                unfreed_chunks := (s.unfreed_chunks + (U32 - 1)) % U32
                used_chunks := s.used_chunks.set idx false } d = some idx := hidx
          have hnn2 : SubPool.isNull
              { s with
                unfreed_chunks := (s.unfreed_chunks + (U32 - 1)) % U32
                used_chunks := s.used_chunks.set idx false } (some d) = false := hnn
          have hbit := Bitmap.getElem?_set s.used_chunks idx false hlen idx
          rw [if_pos rfl] at hbit
          have href := SubPool.Deallocate_refused _ d idx hnn2 hidx2
            (Or.inr (by simp only; rw [hbit]; simp))
          rw [href]
          simp only
          rw [if_pos hlt]
        · rw [if_neg hget] at hok
          cases hok
      · rw [if_neg hlt] at hok
        cases hok
  · intro c n idx hnn hidx
    apply SubPool.Deallocate_refused _ d idx hnn hidx
    by_cases hlt : idx < n
    · right
      simp [SubPool.ctor, hlt]
    · left
      simp only [SubPool.ctor]
      omega

theorem SubPool.Deallocate_rejects_witness :
    SubPool.sample.Deallocate (some 4) = (DeallocStatus.assert_used, SubPool.sample) ∧
    SubPool.sample.Deallocate (some 12) = (DeallocStatus.assert_index, SubPool.sample) ∧
    (SubPool.sample.Deallocate (some 8)).2.Deallocate (some 8)
      = (DeallocStatus.assert_used, (SubPool.sample.Deallocate (some 8)).2) :=
  ⟨(SubPool.Deallocate_rejects SubPool.sample 4).1 1 (by decide) (by decide) (by decide),
   (SubPool.Deallocate_rejects SubPool.sample 12).1 3 (by decide) (by decide) (by decide),
   (SubPool.Deallocate_rejects SubPool.sample 8).2.1 _ (by decide) (by decide)⟩

/-- C10: on every slab state `Deallocate(nullptr)` returns normally, without
reaching either assertion, and leaves every member (bitmap, `unfreed_chunks`,
`peak_usage`) unchanged.  The same holds for every pointer that passes the
test `ptr == nullptr` of line 50. -/
theorem SubPool.Deallocate_nullptr (s : SubPool) :
    s.Deallocate none = (DeallocStatus.ok, s) ∧
    ∀ p, s.isNull p = true → s.Deallocate p = (DeallocStatus.ok, s) :=
  ⟨rfl, fun p hp => s.Deallocate_of_null p hp⟩

/-! ## Invariants along call sequences -/

theorem SubPool.step_eq_some (s : SubPool) (op : Op) (t : SubPool) (h : s.step op = some t) :
    t = s.after op := by
  cases op with
  | alloc =>
    simp only [SubPool.step] at h
    injection h with e
    exact e.symm
  | dealloc p =>
    simp only [SubPool.step] at h
    simp only [SubPool.after]
    generalize s.Deallocate p = r at h
    obtain ⟨st, u⟩ := r
    cases st <;> simp at h
    exact h.symm

theorem SubPool.after_WF (s : SubPool) (h : s.WF) (op : Op) : (s.after op).WF := by
  cases op with
  | alloc => exact s.Allocate_WF h
  | dealloc p => exact s.Deallocate_WF h p

theorem SubPool.run_induction (P : SubPool → Prop)
    (hstep : ∀ s op, P s → P (s.after op)) :
    ∀ ops s t, P s → s.run ops = some t → P t := by
  intro ops
  induction ops with
  | nil =>
    intro s t hs hrun
    simp only [SubPool.run] at hrun
    injection hrun with e
    rw [← e]; exact hs
  | cons op ops ih =>
    intro s t hs hrun
    simp only [SubPool.run] at hrun
    cases hst : s.step op with
    | none => rw [hst] at hrun; cases hrun
    | some u =>
      rw [hst] at hrun
      have hu := s.step_eq_some op u hst
      exact ih u t (by rw [hu]; exact hstep s op hs) hrun

theorem SubPool.run_WF (c n : Nat) (hn : n < U32) (ops : List Op) (s : SubPool)
    (hrun : (SubPool.ctor c n).run ops = some s) : s.WF :=
  SubPool.run_induction SubPool.WF (fun s op h => s.after_WF h op) ops _ s
    (SubPool.ctor_WF c n hn) hrun

theorem SubPool.after_chunk_count (s : SubPool) (h : s.WF) (op : Op) :
    (s.after op).chunk_count = s.chunk_count := by
  cases op with
  | alloc =>
    simp only [SubPool.after]
    rcases s.Allocate_cases h with ⟨_, he⟩ | ⟨i, _, _, _, he⟩
    · rw [he]
    · rw [he]; rfl
  | dealloc p =>
    simp only [SubPool.after]
    rcases s.Deallocate_cases h p with he | ⟨d, idx, _, _, _, _, _, he⟩
    · rw [he]
    · rw [he]

/-- One call never lowers `peak_usage` and keeps it within `chunk_count`. -/
theorem SubPool.after_peak (s : SubPool) (h : s.WF) (hp : s.peak_usage ≤ s.chunk_count)
    (op : Op) :
    s.peak_usage ≤ (s.after op).peak_usage ∧
    (s.after op).peak_usage ≤ (s.after op).chunk_count := by
  cases op with
  | alloc =>
    simp only [SubPool.after]
    rcases s.Allocate_cases h with ⟨_, he⟩ | ⟨i, hi, hfi, _, he⟩
    · rw [he]; exact ⟨le_refl _, hp⟩
    · rw [he, s.take_eq h i hi hfi]
      simp only
      exact ⟨le_max_left _ _, max_le hp hi⟩
  | dealloc p =>
    simp only [SubPool.after]
    rcases s.Deallocate_cases h p with he | ⟨d, idx, _, _, _, _, _, he⟩
    · rw [he]; exact ⟨le_refl _, hp⟩
    · rw [he]; exact ⟨le_refl _, hp⟩

/-- C6: in every state reached from a freshly constructed slab by a finite
sequence of `Allocate` calls and `Deallocate` calls that pass their assertions,
`unfreed_chunks` equals the number of true entries of `used_chunks`, hence lies
between `0` and `chunk_count`; the `uint32_t` counter does not wrap: a
successful `Deallocate` of a non-null pointer (the test of line 50) finds it at
least `1`, and an `Allocate` that returns an address or finds a free chunk
raises it by one without overflow. -/
theorem SubPool.unfreed_chunks_eq_count (c n : Nat) (hn : n < U32) (ops : List Op)
    (s : SubPool) (hrun : (SubPool.ctor c n).run ops = some s) :
    s.unfreed_chunks = s.used_chunks.count true ∧
    s.unfreed_chunks ≤ s.chunk_count ∧
    s.used_chunks.length = s.chunk_count ∧
    (∀ d t, s.isNull (some d) = false → s.Deallocate (some d) = (DeallocStatus.ok, t) →
      t.unfreed_chunks + 1 = s.unfreed_chunks) ∧
    (s.Allocate.1 ≠ none → s.Allocate.2.unfreed_chunks = s.unfreed_chunks + 1) ∧
    ((∃ k, k < s.chunk_count ∧ s.used_chunks[k]? = some false) →
      s.Allocate.2.unfreed_chunks = s.unfreed_chunks + 1) := by
  have h := SubPool.run_WF c n hn ops s hrun
  refine ⟨h.live_eq, ?_, h.length_eq, ?_, ?_, ?_⟩
  · rw [h.live_eq, ← h.length_eq]
    exact List.count_le_length _ _
  · intro d t hnn hok
    cases hidx : s.ptrIndex d with
    | none =>
      rw [s.Deallocate_of_not_null d hnn] at hok
      unfold SubPool.release at hok
      simp only [hidx] at hok
      cases hok
    | some idx =>
      by_cases hocc : s.used_chunks[idx]? = some true
      · obtain ⟨hone, he⟩ := s.Deallocate_occupied h d idx hnn hidx hocc
        rw [he] at hok
        injection hok with _ ht
        rw [← ht]
        exact hone.symm
      · rw [s.Deallocate_refused d idx hnn hidx (Or.inr hocc)] at hok
        split at hok <;> cases hok
  · intro hne
    rcases s.Allocate_cases h with ⟨_, he⟩ | ⟨i, hi, hfi, _, he⟩
    · rw [he] at hne
      exact absurd rfl hne
    · rw [he, s.take_eq h i hi hfi]
  · intro hfree
    rcases s.Allocate_cases h with ⟨hall, _⟩ | ⟨i, hi, hfi, _, he⟩
    · obtain ⟨k, hk, hkf⟩ := hfree
      rw [hall k hk] at hkf
      cases hkf
    · rw [he, s.take_eq h i hi hfi]

theorem SubPool.unfreed_chunks_eq_count_witness :
    (3 : Nat) < U32 ∧
    (SubPool.ctor 4 3).run SubPool.sampleOps = some SubPool.sampleRun ∧
    SubPool.sampleRun.unfreed_chunks = SubPool.sampleRun.used_chunks.count true ∧
    SubPool.sampleRun.unfreed_chunks ≤ SubPool.sampleRun.chunk_count :=
  ⟨by decide, by decide,
    (SubPool.unfreed_chunks_eq_count 4 3 (by decide)
      SubPool.sampleOps SubPool.sampleRun (by decide)).1,
    (SubPool.unfreed_chunks_eq_count 4 3 (by decide)
      SubPool.sampleOps SubPool.sampleRun (by decide)).2.1⟩

/-- C7: along every finite sequence of `Allocate` and `Deallocate` calls on a
freshly constructed slab (where `peak_usage = 0`), `peak_usage` after each call
is at least its value before the call, also when the call is a `Deallocate`
that stops at a failed assertion, and `peak_usage` never exceeds
`chunk_count`. -/
theorem SubPool.peak_usage_monotone (c n : Nat) (hn : n < U32) (ops : List Op)
    (s : SubPool) (hrun : (SubPool.ctor c n).run ops = some s) :
    (SubPool.ctor c n).peak_usage = 0 ∧
    s.chunk_count = n ∧
    s.peak_usage ≤ s.chunk_count ∧
    ∀ op, s.peak_usage ≤ (s.after op).peak_usage ∧
      (s.after op).peak_usage ≤ (s.after op).chunk_count := by
  have hinv : s.WF ∧ s.peak_usage ≤ s.chunk_count ∧ s.chunk_count = n :=
    SubPool.run_induction (fun u => u.WF ∧ u.peak_usage ≤ u.chunk_count ∧ u.chunk_count = n)
      (fun u op hu => ⟨u.after_WF hu.1 op, (u.after_peak hu.1 hu.2.1 op).2, by
        rw [u.after_chunk_count hu.1 op]; exact hu.2.2⟩)
      ops _ s ⟨SubPool.ctor_WF c n hn, Nat.zero_le _, rfl⟩ hrun
  exact ⟨rfl, hinv.2.2, hinv.2.1, fun op => s.after_peak hinv.1 hinv.2.1 op⟩

theorem SubPool.peak_usage_monotone_witness :
    (3 : Nat) < U32 ∧
    (SubPool.ctor 4 3).run SubPool.sampleOps = some SubPool.sampleRun ∧
    SubPool.sampleRun.peak_usage ≤ SubPool.sampleRun.chunk_count ∧
    SubPool.sampleRun.peak_usage ≤ (SubPool.sampleRun.after Op.alloc).peak_usage :=
  ⟨by decide, by decide,
    (SubPool.peak_usage_monotone 4 3 (by decide)
      SubPool.sampleOps SubPool.sampleRun (by decide)).2.2.1,
    ((SubPool.peak_usage_monotone 4 3 (by decide)
      SubPool.sampleOps SubPool.sampleRun (by decide)).2.2.2 Op.alloc).1⟩

/-! ## Consecutive allocations on a fresh slab -/

theorem SubPool.Allocate_eq_take (s : SubPool) (h : s.WF) (i : Nat) (hi : i < s.chunk_count)
    (hfree : s.used_chunks[i]? = some false)
    (hlow : ∀ j, j < i → s.used_chunks[j]? = some true) :
    s.Allocate = s.take i := by
  unfold SubPool.Allocate
  apply s.allocLoop_found h.count_lt i hi ((s.isFree_iff i).2 hfree) _ 0 (Nat.zero_le _)
    (by omega)
  intro k _ hk
  exact (s.isFree_eq_false_iff k (by rw [h.length_eq]; omega)).2 (hlow k hk)

/-- A slab whose first `k` chunks are occupied and whose other `m` chunks are
free hands out chunks `k, k + 1, ...` in this order and then reports
exhaustion. -/
theorem SubPool.allocSeq_from (m : Nat) :
    ∀ (s : SubPool) (k : Nat), s.WF → k + m = s.chunk_count →
      (∀ j, s.used_chunks[j]? =
        if j < k then some true else if j < s.chunk_count then some false else none) →
      s.allocSeq (m + 1) =
        (List.range' k m).map (fun i => s.memoryAt ((i * s.chunk_size) % U32))
          ++ [none] := by
  induction m with
  | zero =>
    intro s k h hk hbits
    have hnone : s.Allocate = (none, s) := by
      rcases s.Allocate_cases h with ⟨_, he⟩ | ⟨i, hi, hfi, _, _⟩
      · exact he
      · rw [hbits i, if_pos (by omega)] at hfi
        cases hfi
    simp [SubPool.allocSeq, hnone]
  | succ m ih =>
    intro s k h hk hbits
    have hkc : k < s.chunk_count := by omega
    have hfree : s.used_chunks[k]? = some false := by
      rw [hbits k, if_neg (lt_irrefl k), if_pos hkc]
    have hlow : ∀ j, j < k → s.used_chunks[j]? = some true := by
      intro j hj
      rw [hbits j, if_pos hj]
    have he : s.Allocate = _ := (s.Allocate_eq_take h k hkc hfree hlow).trans
      (s.take_eq h k hkc hfree)
    have hwf : s.Allocate.2.WF := s.Allocate_WF h
    have hlen := Bitmap.lt_length_of_getElem? _ _ _ hfree
    rw [SubPool.allocSeq, List.range'_succ, List.map_cons, List.cons_append]
    have hrest := ih s.Allocate.2 (k + 1) hwf (by rw [he]; simp only; omega) (by
      intro j
      rw [he]
      simp only
      rw [Bitmap.getElem?_set _ _ _ hlen j, hbits j]
      split_ifs <;> first | rfl | (exfalso; omega))
    rw [hrest, he]
    rfl

/-- The results of `n + 1` consecutive `Allocate()` calls on a fresh slab: the
addresses of chunks `0, ..., n - 1` as line 39 computes them, then `nullptr`. -/
theorem SubPool.allocSeq_ctor (c n : Nat) (hn : n < U32) :
    (SubPool.ctor c n).allocSeq (n + 1) =
      (List.range n).map (fun i => (SubPool.ctor c n).memoryAt ((i * c) % U32))
        ++ [none] := by
  rw [List.range_eq_range']
  exact SubPool.allocSeq_from n (SubPool.ctor c n) 0 (SubPool.ctor_WF c n hn)
    (by simp [SubPool.ctor]) (by
      intro j
      simp [SubPool.ctor, List.getElem?_replicate])

/-- When `chunk_size * chunk_count` is below `2 ^ 32`, the first `n`
consecutive `Allocate()` calls on a fresh slab return the pairwise distinct
non-null addresses `0, c, 2 * c, ...` and call `n + 1` returns `nullptr`. -/
theorem SubPool.allocSeq_ctor_of_fit (c n : Nat) (hn : n < U32) (hpos : 0 < c)
    (hfit : c * n < U32) :
    (SubPool.ctor c n).allocSeq (n + 1) =
      (List.range n).map (fun i => some ((i * c : Nat) : Int)) ++ [none] ∧
    ((List.range n).map (fun i => (some ((i * c : Nat) : Int) : Ptr))).Nodup := by
  have hlt : ∀ i, i ∈ List.range n → (i * c) % U32 = i * c := by
    intro i hi
    apply Nat.mod_eq_of_lt
    calc i * c < n * c := Nat.mul_lt_mul_of_pos_right (List.mem_range.1 hi) hpos
      _ = c * n := Nat.mul_comm _ _
      _ < U32 := hfit
  refine ⟨?_, ?_⟩
  · rw [SubPool.allocSeq_ctor c n hn]
    congr 1
    apply List.map_congr_left
    intro i hi
    have hn0 : 0 < n := lt_of_le_of_lt (Nat.zero_le _) (List.mem_range.1 hi)
    have hmem : 0 < (SubPool.ctor c n).memory_size := by
      simp only [SubPool.ctor]
      rw [Nat.mod_eq_of_lt hfit]
      exact Nat.mul_pos hpos hn0
    rw [hlt i hi, SubPool.memoryAt_of_memory _ _ hmem]
  · apply List.Nodup.map_on _ (List.nodup_range n)
    intro x _ y _ hxy
    have h1 : ((x * c : Nat) : Int) = ((y * c : Nat) : Int) := by
      injection hxy
    have h2 : x * c = y * c := by exact_mod_cast h1
    exact Nat.eq_of_mul_eq_mul_right hpos h2

/-- C1 (evaluation at the failing input): on the slab `SubPool(2147483648, 3)`
the `uint32_t` product `2 * 2147483648` of line 39 wraps to `0`, so the third
`Allocate()` returns the address the first call returned. -/
theorem SubPool.allocSeq_wraps_to_duplicate :
    (2147483648 : Nat) < U32 ∧
    (SubPool.ctor 2147483648 3).allocSeq 4 = [some 0, some 2147483648, some 0, none] ∧
    ¬ ((SubPool.ctor 2147483648 3).allocSeq 3).Nodup := by
  refine ⟨by decide, by decide, by decide⟩

/-! ## Addresses and the region -/

/-- When `chunk_size * chunk_count` is below `2 ^ 32` and the region has that
length, every address `Allocate()` returns lies inside the region at a
multiple of `chunk_size`. -/
theorem SubPool.Allocate_in_region_of_fit (s : SubPool) (h : s.WF) (hpos : 0 < s.chunk_size)
    (hfit : s.chunk_size * s.chunk_count < U32)
    (hmem : s.memory_size = s.chunk_size * s.chunk_count) (d : Int)
    (hret : s.Allocate.1 = some d) :
    ∃ i, i < s.chunk_count ∧ d = ((i * s.chunk_size : Nat) : Int) ∧
      i * s.chunk_size < s.memory_size := by
  rcases s.Allocate_cases h with ⟨_, he⟩ | ⟨i, hi, _, _, he⟩
  · rw [he] at hret
    cases hret
  · rw [he] at hret
    have hlt : i * s.chunk_size < s.chunk_size * s.chunk_count :=
      calc i * s.chunk_size < s.chunk_count * s.chunk_size :=
            Nat.mul_lt_mul_of_pos_right hi hpos
        _ = s.chunk_size * s.chunk_count := Nat.mul_comm _ _
    refine ⟨i, hi, ?_, by rw [hmem]; exact hlt⟩
    have hmem0 : 0 < s.memory_size := by
      rw [hmem]; exact lt_of_le_of_lt (Nat.zero_le _) hlt
    simp only [SubPool.take, SubPool.chunkOffset] at hret
    rw [Nat.mod_eq_of_lt (lt_trans hlt hfit), s.memoryAt_of_memory _ hmem0] at hret
    injection hret with e
    exact e.symm

/-- C8 (evaluation at the failing input): on the slab
`SubPool(3221225472, 3)` the constructor's `uint32_t` product gives `memory`
the length `1073741824`, and the third `Allocate()` returns the offset
`2147483648`, which is neither below that length nor a multiple of
`chunk_size`. -/
theorem SubPool.Allocate_outside_region :
    (SubPool.ctor 3221225472 3).memory_size = 1073741824 ∧
    ((SubPool.ctor 3221225472 3).allocIter 2).Allocate.1 = some 2147483648 ∧
    ¬ ((2147483648 : Int) < 1073741824) ∧
    ¬ ((3221225472 : Int) ∣ 2147483648) := by
  refine ⟨by decide, by decide, by decide, by decide⟩

/-! ## `Deallocate` followed by `Allocate` -/

/-- When `memory` is not empty, the address of an occupied chunk `i` is
computed without wrap-around and every lower chunk is occupied, `Deallocate` of
that address followed by `Allocate()` returns the same address and restores the
bitmap and `unfreed_chunks`. -/
theorem SubPool.Deallocate_Allocate_of_fit (s : SubPool) (h : s.WF) (hpos : 0 < s.chunk_size)
    (hmem : 0 < s.memory_size)
    (i : Nat) (hi : i < s.chunk_count) (hfit : i * s.chunk_size < U32)
    (hocc : s.used_chunks[i]? = some true)
    (hlow : ∀ j, j < i → s.used_chunks[j]? = some true) :
    (s.Deallocate (some (s.chunkOffset i : Int))).1 = DeallocStatus.ok ∧
    (s.Deallocate (some (s.chunkOffset i : Int))).2.Allocate.1
      = some (s.chunkOffset i : Int) ∧
    (s.Deallocate (some (s.chunkOffset i : Int))).2.Allocate.2.used_chunks = s.used_chunks ∧
    (s.Deallocate (some (s.chunkOffset i : Int))).2.Allocate.2.unfreed_chunks
      = s.unfreed_chunks := by
  have hidx := s.ptrIndex_chunkOffset i hpos hfit
  obtain ⟨hone, he⟩ := s.Deallocate_occupied h _ i (s.isNull_of_memory _ hmem) hidx hocc
  have hwf := s.Deallocate_WF h (some (s.chunkOffset i : Int))
  have hlen := Bitmap.lt_length_of_getElem? _ _ _ hocc
  rw [he] at hwf ⊢
  have hbit : ∀ j, (s.used_chunks.set i false)[j]? =
      if j = i then some false else s.used_chunks[j]? :=
    Bitmap.getElem?_set _ _ _ hlen
  have hfree : (s.used_chunks.set i false)[i]? = some false := by
    rw [hbit i, if_pos rfl]
  have hlow2 : ∀ j, j < i → (s.used_chunks.set i false)[j]? = some true := by
    intro j hj
    rw [hbit j, if_neg (by omega)]
    exact hlow j hj
  have ha := (SubPool.Allocate_eq_take _ hwf i hi hfree hlow2).trans
    (SubPool.take_eq _ hwf i hi hfree)
  rw [ha]
  refine ⟨rfl, ?_, ?_, ?_⟩
  · exact SubPool.memoryAt_of_memory _ _ hmem
  · simp only
    apply List.ext_getElem?
    intro j
    rw [Bitmap.getElem?_set _ _ _ (by rw [List.length_set]; exact hlen) j, hbit j]
    by_cases hji : j = i
    · subst hji
      rw [if_pos rfl, hocc]
    · rw [if_neg hji, if_neg hji]
  · simp only
    omega

/-- C9 (evaluation at the failing input): on the full slab
`SubPool(3221225472, 3)` the address of chunk 2 is the wrapped offset
`2147483648`; `Deallocate` maps it to index `0`, frees chunk 0, and the next
`Allocate()` returns offset `0`, not the address that was freed. -/
theorem SubPool.Deallocate_Allocate_wrapped :
    ((SubPool.ctor 3221225472 3).allocIter 3).used_chunks = [true, true, true] ∧
    ((SubPool.ctor 3221225472 3).allocIter 3).chunkOffset 2 = 2147483648 ∧
    (((SubPool.ctor 3221225472 3).allocIter 3).Deallocate (some 2147483648)).1
      = DeallocStatus.ok ∧
    (((SubPool.ctor 3221225472 3).allocIter 3).Deallocate (some 2147483648)).2.used_chunks
      = [false, true, true] ∧
    (((SubPool.ctor 3221225472 3).allocIter 3).Deallocate (some 2147483648)).2.Allocate.1
      = some 0 := by
  refine ⟨by decide, by decide, by decide, by decide, by decide⟩

/-! ## The constructor of `MemPool` -/

theorem MemPool.samplePool_ok :
    MemPool.ctor 4096 4 [256, 16, 64] = MemPool.CtorResult.ok MemPool.samplePool := by
  rfl

theorem MemPool.sampleBuilt_ok :
    MemPool.partition 4096 (MemPool.sortSizes [256, 16, 64]) 0 = some MemPool.sampleBuilt := by
  rfl

/-- Without wrap-around the loop of lines 79-83 adds the exact sum. -/
theorem MemPool.totalMemory_exact (alignment : Nat) :
    ∀ (l : List Nat) (total : Nat), total + (l.map (fun c => c * alignment)).sum < U32 →
      MemPool.totalMemory alignment total l = total + (l.map (fun c => c * alignment)).sum := by
  intro l
  induction l with
  | nil => intro total _; simp [MemPool.totalMemory]
  | cons c rest ih =>
    intro total h
    simp only [List.map_cons, List.sum_cons] at h ⊢
    have h1 : (c * alignment) % U32 = c * alignment := Nat.mod_eq_of_lt (by omega)
    have h2 : (total + c * alignment) % U32 = total + c * alignment :=
      Nat.mod_eq_of_lt (by omega)
    rw [MemPool.totalMemory, h1, h2, ih _ (by omega)]
    omega

theorem MemPool.sortSizes_perm (l : List Nat) : (MemPool.sortSizes l).Perm l :=
  List.perm_insertionSort _ l

theorem MemPool.sortSizes_sorted (l : List Nat) :
    (MemPool.sortSizes l).Sorted (fun a b => a ≤ b) :=
  List.sorted_insertionSort _ l

/-- The two outcomes of a construction that passes the check of line 86. -/
theorem MemPool.ctor_ok_iff (max_memory alignment : Nat) (chunk_sizes : List Nat)
    (pool : MemPool) :
    MemPool.ctor max_memory alignment chunk_sizes = MemPool.CtorResult.ok pool ↔
      MemPool.totalMemory alignment 0 (MemPool.sortSizes chunk_sizes) ≤ max_memory ∧
      ∃ built, MemPool.partition max_memory (MemPool.sortSizes chunk_sizes) 0 = some built ∧
        pool = { max_memory_ := max_memory
                 alignment_ := alignment
                 chunk_sizes_ := MemPool.sortSizes chunk_sizes
                 sub_pools_ := built.map Prod.snd } := by
  unfold MemPool.ctor
  by_cases ht : MemPool.totalMemory alignment 0 (MemPool.sortSizes chunk_sizes) ≤ max_memory
  · rw [if_pos ht]
    cases hp : MemPool.partition max_memory (MemPool.sortSizes chunk_sizes) 0 with
    | none => simp [ht]
    | some built =>
      simp only [ht, true_and]
      constructor
      · intro h
        injection h with e
        exact ⟨built, rfl, e.symm⟩
      · rintro ⟨b, hb, e⟩
        injection hb with hb
        subst hb
        rw [e]
  · rw [if_neg ht]
    simp [ht]

/-- One iteration of the loop of lines 92-97 when the running offset is within
`max_memory`: no `uint32_t` operation wraps. -/
theorem MemPool.partition_cons (max_memory : Nat) (hmax : max_memory < U32) (c : Nat)
    (rest : List Nat) (offset : Nat) (hc : c ≠ 0) (ho : offset ≤ max_memory) :
    MemPool.partition max_memory (c :: rest) offset =
      (MemPool.partition max_memory rest (offset + (max_memory - offset) / c * c)).map
        (fun built => (offset, SubPool.ctor c ((max_memory - offset) / c)) :: built) ∧
    offset + (max_memory - offset) / c * c ≤ max_memory := by
  have hsub : (max_memory + U32 - offset) % U32 = max_memory - offset := by
    have e : max_memory + U32 - offset = (max_memory - offset) + U32 := by omega
    rw [e, Nat.add_mod_right]
    exact Nat.mod_eq_of_lt (by omega)
  have hle : (max_memory - offset) / c * c ≤ max_memory - offset := Nat.div_mul_le_self _ _
  have hmul : ((max_memory - offset) / c * c) % U32 = (max_memory - offset) / c * c :=
    Nat.mod_eq_of_lt (by omega)
  have hadd : (offset + (max_memory - offset) / c * c) % U32
      = offset + (max_memory - offset) / c * c := Nat.mod_eq_of_lt (by omega)
  refine ⟨?_, by omega⟩
  rw [MemPool.partition, if_neg hc]
  simp only [hsub, hmul, hadd]

/-- What the loop of lines 92-97 builds from a running offset within
`max_memory`: one slab per size, in order, each region starting where the
previous one ends and ending within `max_memory`. -/
theorem MemPool.partition_inv (max_memory : Nat) (hmax : max_memory < U32) :
    ∀ (sizes : List Nat) (offset : Nat) (built : List (Nat × SubPool)),
      offset ≤ max_memory → MemPool.partition max_memory sizes offset = some built →
      built.map (fun r => r.2.chunk_size) = sizes ∧
      (∀ r, r ∈ built → offset ≤ r.1 ∧ r.1 ≤ max_memory ∧ MemPool.regionEnd r ≤ max_memory ∧
        r.2.chunk_size ≠ 0 ∧
        r.2 = SubPool.ctor r.2.chunk_size ((max_memory - r.1) / r.2.chunk_size)) ∧
      (∀ r, built.head? = some r → r.1 = offset) ∧
      built.Chain' (fun a b => b.1 = MemPool.regionEnd a) ∧
      built.Pairwise (fun a b => MemPool.regionEnd a ≤ b.1) ∧
      offset + (built.map (fun r => r.2.chunk_size * r.2.chunk_count)).sum ≤ max_memory := by
  intro sizes
  induction sizes with
  | nil =>
    intro offset built ho hp
    simp only [MemPool.partition] at hp
    injection hp with e
    subst e
    simp [ho]
  | cons c rest ih =>
    intro offset built ho hp
    by_cases hc : c = 0
    · rw [MemPool.partition, if_pos hc] at hp
      cases hp
    · obtain ⟨hstep, hnext⟩ := MemPool.partition_cons max_memory hmax c rest offset hc ho
      rw [hstep] at hp
      cases hrest : MemPool.partition max_memory rest (offset + (max_memory - offset) / c * c) with
      | none => rw [hrest] at hp; cases hp
      | some tail =>
        rw [hrest] at hp
        simp only [Option.map_some'] at hp
        injection hp with e
        subst e
        obtain ⟨h1, h2, h3, h4, h5, h6⟩ := ih _ tail hnext hrest
        have hend : MemPool.regionEnd (offset, SubPool.ctor c ((max_memory - offset) / c))
            = offset + (max_memory - offset) / c * c := by
          simp only [MemPool.regionEnd, SubPool.ctor]
          rw [Nat.mul_comm]
        refine ⟨?_, ?_, ?_, ?_, ?_, ?_⟩
        · simp only [List.map_cons, h1]
          rfl
        · intro r hr
          rcases List.mem_cons.1 hr with e | hr
          · subst e
            refine ⟨le_refl _, ho, by rw [hend]; exact hnext, hc, rfl⟩
          · obtain ⟨a, b, c1, d, e⟩ := h2 r hr
            exact ⟨by omega, b, c1, d, e⟩
        · intro r hr
          simp only [List.head?_cons] at hr
          injection hr with e
          rw [← e]
        · rw [List.chain'_cons']
          refine ⟨?_, h4⟩
          intro r hr
          rw [hend]
          exact h3 r hr
        · rw [List.pairwise_cons]
          refine ⟨?_, h5⟩
          intro r hr
          rw [hend]
          exact (h2 r hr).1
        · simp only [List.map_cons, List.sum_cons]
          have : (SubPool.ctor c ((max_memory - offset) / c)).chunk_size *
              (SubPool.ctor c ((max_memory - offset) / c)).chunk_count
                = (max_memory - offset) / c * c := by
            simp only [SubPool.ctor]
            rw [Nat.mul_comm]
          rw [this]
          omega

/-- The slabs the loop of lines 92-97 builds carry the sizes it iterates over,
in the same order. -/
theorem MemPool.partition_sizes (max_memory : Nat) :
    ∀ (sizes : List Nat) (offset : Nat) (built : List (Nat × SubPool)),
      MemPool.partition max_memory sizes offset = some built →
      built.map (fun r => r.2.chunk_size) = sizes := by
  intro sizes
  induction sizes with
  | nil =>
    intro offset built hp
    simp only [MemPool.partition] at hp
    injection hp with e
    subst e
    rfl
  | cons c rest ih =>
    intro offset built hp
    by_cases hc : c = 0
    · rw [MemPool.partition, if_pos hc] at hp
      cases hp
    · rw [MemPool.partition, if_neg hc] at hp
      simp only at hp
      cases hrest : MemPool.partition max_memory rest
          ((offset + ((max_memory + U32 - offset) % U32 / c * c) % U32) % U32) with
      | none => rw [hrest] at hp; cases hp
      | some tail =>
        rw [hrest] at hp
        simp only [Option.map_some'] at hp
        injection hp with e
        subst e
        simp only [List.map_cons, ih _ tail hrest]
        rfl

/-- When what is left of `max_memory` is smaller than every remaining size,
every remaining slab is built with `chunk_count = 0` at the same offset. -/
theorem MemPool.partition_starved (max_memory : Nat) (hmax : max_memory < U32) :
    ∀ (sizes : List Nat) (offset : Nat), offset ≤ max_memory →
      (∀ c, c ∈ sizes → max_memory - offset < c) →
      MemPool.partition max_memory sizes offset
        = some (sizes.map (fun c => (offset, SubPool.ctor c 0))) := by
  intro sizes
  induction sizes with
  | nil => intro offset _ _; rfl
  | cons c rest ih =>
    intro offset ho hall
    have hlt : max_memory - offset < c := hall c (List.mem_cons_self _ _)
    have hc : c ≠ 0 := by omega
    have hdiv : (max_memory - offset) / c = 0 := Nat.div_eq_of_lt hlt
    rw [(MemPool.partition_cons max_memory hmax c rest offset hc ho).1, hdiv]
    simp only [Nat.zero_mul, Nat.add_zero]
    rw [ih offset ho (fun d hd => hall d (List.mem_cons_of_mem _ hd))]
    rfl

/-- When the exact sum of `chunk_size * alignment` fits in 32 bits and exceeds
`max_memory`, the check of line 86 fails and no pool is produced. -/
theorem MemPool.ctor_rejects_of_exact_sum (max_memory alignment : Nat) (chunk_sizes : List Nat)
    (hfit : (chunk_sizes.map (fun c => c * alignment)).sum < U32)
    (hbig : max_memory < (chunk_sizes.map (fun c => c * alignment)).sum) :
    MemPool.ctor max_memory alignment chunk_sizes = MemPool.CtorResult.assert_total := by
  have hsum : ((MemPool.sortSizes chunk_sizes).map (fun c => c * alignment)).sum
      = (chunk_sizes.map (fun c => c * alignment)).sum :=
    ((MemPool.sortSizes_perm chunk_sizes).map _).sum_eq
  have htot := MemPool.totalMemory_exact alignment (MemPool.sortSizes chunk_sizes) 0
    (by rw [hsum]; omega)
  unfold MemPool.ctor
  rw [htot, hsum, if_neg (by omega)]

/-- The example of the specification: `MemPool(100, 1, {64, 64})` fails the
check of line 86. -/
theorem MemPool.ctor_example_rejected :
    MemPool.ctor 100 1 [64, 64] = MemPool.CtorResult.assert_total := by
  decide

/-- C11 (evaluation at the failing input): for `MemPool(100, 1, {2147483648,
2147483648})` the exact sum of `chunk_size * alignment` is `4294967296 > 100`,
but the `uint32_t` accumulator of line 82 wraps to `0`, the check of line 86
passes, and a pool with two slabs is produced. -/
theorem MemPool.ctor_total_wraps :
    ([2147483648, 2147483648].map (fun c => c * 1)).sum = 4294967296 ∧
    MemPool.totalMemory 1 0 (MemPool.sortSizes [2147483648, 2147483648]) = 0 ∧
    MemPool.ctor 100 1 [2147483648, 2147483648] =
      MemPool.CtorResult.ok
        { max_memory_ := 100
          alignment_ := 1
          chunk_sizes_ := [2147483648, 2147483648]
          sub_pools_ := [SubPool.ctor 2147483648 0, SubPool.ctor 2147483648 0] } := by
  refine ⟨by decide, by decide, by decide⟩

/-- C12: for every `max_memory` (a `uint32_t`), alignment and list of chunk
sizes for which the constructor succeeds, the exact sum of
`chunk_size * chunk_count` over the slabs is at most `max_memory`; every value
the running `offset` takes in the loop of lines 92-97, when a slab is built
and after it is added, is at most `max_memory`, so the `uint32_t` difference
`max_memory - offset` of line 94 is the exact difference. -/
theorem MemPool.ctor_within_capacity (max_memory alignment : Nat) (chunk_sizes : List Nat)
    (pool : MemPool) (hmax : max_memory < U32)
    (hok : MemPool.ctor max_memory alignment chunk_sizes = MemPool.CtorResult.ok pool) :
    (pool.sub_pools_.map (fun s => s.chunk_size * s.chunk_count)).sum ≤ max_memory ∧
    ∃ built, MemPool.partition max_memory (MemPool.sortSizes chunk_sizes) 0 = some built ∧
      pool.sub_pools_ = built.map Prod.snd ∧
      ∀ r, r ∈ built → r.1 ≤ max_memory ∧ MemPool.regionEnd r ≤ max_memory ∧
        (max_memory + U32 - r.1) % U32 = max_memory - r.1 := by
  obtain ⟨_, built, hp, hpool⟩ := (MemPool.ctor_ok_iff _ _ _ _).1 hok
  obtain ⟨_, h2, _, _, _, h6⟩ := MemPool.partition_inv max_memory hmax _ 0 built
    (Nat.zero_le _) hp
  have hsub : pool.sub_pools_ = built.map Prod.snd := by rw [hpool]
  refine ⟨?_, built, hp, hsub, ?_⟩
  · rw [hsub, List.map_map]
    simpa using h6
  · intro r hr
    obtain ⟨_, hle, hend, _, _⟩ := h2 r hr
    refine ⟨hle, hend, ?_⟩
    have e : max_memory + U32 - r.1 = (max_memory - r.1) + U32 := by omega
    rw [e, Nat.add_mod_right]
    exact Nat.mod_eq_of_lt (by omega)

theorem MemPool.ctor_within_capacity_witness :
    (4096 : Nat) < U32 ∧
    MemPool.ctor 4096 4 [256, 16, 64] = MemPool.CtorResult.ok MemPool.samplePool ∧
    (MemPool.samplePool.sub_pools_.map (fun s => s.chunk_size * s.chunk_count)).sum ≤ 4096 :=
  ⟨by decide, MemPool.samplePool_ok,
    (MemPool.ctor_within_capacity 4096 4 [256, 16, 64] MemPool.samplePool (by decide)
      MemPool.samplePool_ok).1⟩

/-- C13: for every input for which the constructor succeeds, the `chunk_size`
values of the slabs, in slab order, are sorted in non-decreasing order and are
a permutation of the input list: one slab per requested size, duplicates
kept, whatever the input order. -/
theorem MemPool.ctor_sizes_sorted_perm (max_memory alignment : Nat) (chunk_sizes : List Nat)
    (pool : MemPool)
    (hok : MemPool.ctor max_memory alignment chunk_sizes = MemPool.CtorResult.ok pool) :
    (pool.sub_pools_.map SubPool.chunk_size).Sorted (fun a b => a ≤ b) ∧
    (pool.sub_pools_.map SubPool.chunk_size).Perm chunk_sizes ∧
    pool.sub_pools_.length = chunk_sizes.length ∧
    (∀ other, other.Perm chunk_sizes →
      ∀ q, MemPool.ctor max_memory alignment other = MemPool.CtorResult.ok q →
        q.sub_pools_.map SubPool.chunk_size = pool.sub_pools_.map SubPool.chunk_size) := by
  have key : ∀ l pl, MemPool.ctor max_memory alignment l = MemPool.CtorResult.ok pl →
      pl.sub_pools_.map SubPool.chunk_size = MemPool.sortSizes l := by
    intro l pl h
    obtain ⟨_, built, hp, hpool⟩ := (MemPool.ctor_ok_iff _ _ _ _).1 h
    have hs := MemPool.partition_sizes max_memory _ 0 built hp
    rw [hpool]
    simp only [List.map_map]
    exact hs
  have hk := key chunk_sizes pool hok
  refine ⟨?_, ?_, ?_, ?_⟩
  · rw [hk]; exact MemPool.sortSizes_sorted chunk_sizes
  · rw [hk]; exact MemPool.sortSizes_perm chunk_sizes
  · have := (MemPool.sortSizes_perm chunk_sizes).length_eq
    rw [← hk, List.length_map] at this
    exact this
  · intro other hperm q hq
    rw [key other q hq, hk]
    apply List.eq_of_perm_of_sorted _ (MemPool.sortSizes_sorted other)
      (MemPool.sortSizes_sorted chunk_sizes)
    exact ((MemPool.sortSizes_perm other).trans hperm).trans
      (MemPool.sortSizes_perm chunk_sizes).symm

theorem MemPool.ctor_sizes_sorted_perm_witness :
    MemPool.ctor 4096 4 [256, 16, 64] = MemPool.CtorResult.ok MemPool.samplePool ∧
    (MemPool.samplePool.sub_pools_.map SubPool.chunk_size).Sorted (fun a b => a ≤ b) ∧
    (MemPool.samplePool.sub_pools_.map SubPool.chunk_size).Perm [256, 16, 64] :=
  ⟨MemPool.samplePool_ok,
    (MemPool.ctor_sizes_sorted_perm 4096 4 [256, 16, 64] MemPool.samplePool
      MemPool.samplePool_ok).1,
    (MemPool.ctor_sizes_sorted_perm 4096 4 [256, 16, 64] MemPool.samplePool
      MemPool.samplePool_ok).2.1⟩

/-- C14 (evaluation at the failing input): `MemPool(4096, 4, {16, 64, 256})`
passes the check of line 86 (`4 * (16 + 64 + 256) = 1344 <= 4096`) and is
constructed, but the first slab takes all `4096` bytes (`256` chunks of `16`)
and the slabs of sizes `64` and `256` are built with `chunk_count = 0`. -/
theorem MemPool.ctor_starves_later_slabs :
    MemPool.totalMemory 4 0 (MemPool.sortSizes [16, 64, 256]) = 1344 ∧
    (MemPool.ctor 4096 4 [16, 64, 256]).pool?.map
        (fun p => p.sub_pools_.map (fun s => (s.chunk_size, s.chunk_count)))
      = some [(16, 256), (64, 0), (256, 0)] := by
  refine ⟨by decide, by decide⟩

/-- C15: for every successful construction, give the `k`-th slab the region
from the value of the running `offset` when it is built to that value plus
`chunk_size * chunk_count`.  The first region starts at `0`, each region starts
exactly where the previous one ends, an earlier region ends at or before the
start of every later one, no byte lies in the regions of two distinct slabs,
and every region ends at or before `max_memory`. -/
theorem MemPool.ctor_regions_disjoint (max_memory alignment : Nat) (chunk_sizes : List Nat)
    (pool : MemPool) (hmax : max_memory < U32)
    (hok : MemPool.ctor max_memory alignment chunk_sizes = MemPool.CtorResult.ok pool) :
    ∃ built, MemPool.partition max_memory (MemPool.sortSizes chunk_sizes) 0 = some built ∧
      pool.sub_pools_ = built.map Prod.snd ∧
      (∀ r, built.head? = some r → r.1 = 0) ∧
      built.Chain' (fun a b => b.1 = MemPool.regionEnd a) ∧
      built.Pairwise (fun a b => MemPool.regionEnd a ≤ b.1) ∧
      (∀ (i j : Nat) (a b : Nat × SubPool), i ≠ j → built[i]? = some a → built[j]? = some b →
        ∀ x, ¬ ((a.1 ≤ x ∧ x < MemPool.regionEnd a) ∧ (b.1 ≤ x ∧ x < MemPool.regionEnd b))) ∧
      (∀ r, r ∈ built → r.1 ≤ MemPool.regionEnd r ∧ MemPool.regionEnd r ≤ max_memory) := by
  obtain ⟨_, built, hp, hpool⟩ := (MemPool.ctor_ok_iff _ _ _ _).1 hok
  obtain ⟨_, h2, h3, h4, h5, _⟩ := MemPool.partition_inv max_memory hmax _ 0 built
    (Nat.zero_le _) hp
  have hlt : ∀ (i j : Nat) (a b : Nat × SubPool), i < j → built[i]? = some a →
      built[j]? = some b →
      MemPool.regionEnd a ≤ b.1 := by
    intro i j a b hij ha hb
    have hi := (List.getElem?_eq_some_iff.1 ha)
    have hj := (List.getElem?_eq_some_iff.1 hb)
    obtain ⟨hi1, hi2⟩ := hi
    obtain ⟨hj1, hj2⟩ := hj
    have := (List.pairwise_iff_getElem.1 h5) i j hi1 hj1 hij
    rw [hi2, hj2] at this
    exact this
  refine ⟨built, hp, by rw [hpool], h3, h4, h5, ?_, ?_⟩
  · intro i j a b hij ha hb x hx
    rcases Nat.lt_or_gt_of_ne hij with hlt1 | hgt
    · have := hlt i j a b hlt1 ha hb
      omega
    · have := hlt j i b a hgt hb ha
      omega
  · intro r hr
    obtain ⟨_, _, hend, _, _⟩ := h2 r hr
    exact ⟨Nat.le_add_right _ _, hend⟩

theorem MemPool.ctor_regions_disjoint_witness :
    (4096 : Nat) < U32 ∧
    MemPool.ctor 4096 4 [256, 16, 64] = MemPool.CtorResult.ok MemPool.samplePool ∧
    ∃ built, MemPool.partition 4096 (MemPool.sortSizes [256, 16, 64]) 0 = some built ∧
      MemPool.samplePool.sub_pools_ = built.map Prod.snd ∧
      built.Pairwise (fun a b => MemPool.regionEnd a ≤ b.1) :=
  ⟨by decide, MemPool.samplePool_ok,
    (MemPool.ctor_regions_disjoint 4096 4 [256, 16, 64] MemPool.samplePool (by decide)
      MemPool.samplePool_ok).imp (fun _ h => ⟨h.1, h.2.1, h.2.2.2.2.1⟩)⟩

/-- C17: for every successful construction over a non-empty list of chunk
sizes (success forces every size to be positive), the first slab has the
smallest size `s_min` and `chunk_count = max_memory / s_min`, and every later
slab has `chunk_count = 0`: what is left after the first slab is
`max_memory % s_min` bytes, fewer than every remaining size. -/
theorem MemPool.ctor_first_slab_takes_all (max_memory alignment : Nat)
    (chunk_sizes : List Nat) (pool : MemPool) (hmax : max_memory < U32)
    (hne : chunk_sizes ≠ [])
    (hok : MemPool.ctor max_memory alignment chunk_sizes = MemPool.CtorResult.ok pool) :
    ∃ s_min rest, MemPool.sortSizes chunk_sizes = s_min :: rest ∧
      0 < s_min ∧ s_min ∈ chunk_sizes ∧ (∀ c, c ∈ chunk_sizes → s_min ≤ c) ∧
      pool.sub_pools_ =
        SubPool.ctor s_min (max_memory / s_min) :: rest.map (fun c => SubPool.ctor c 0) ∧
      max_memory - max_memory / s_min * s_min = max_memory % s_min ∧
      (∀ c, c ∈ rest → max_memory % s_min < c) := by
  obtain ⟨_, built, hp, hpool⟩ := (MemPool.ctor_ok_iff _ _ _ _).1 hok
  have hperm := MemPool.sortSizes_perm chunk_sizes
  have hsorted := MemPool.sortSizes_sorted chunk_sizes
  cases hs : MemPool.sortSizes chunk_sizes with
  | nil =>
    rw [hs] at hperm
    exact absurd (List.Perm.eq_nil hperm.symm) hne
  | cons s_min rest =>
    rw [hs] at hp hperm hsorted
    have hpos : s_min ≠ 0 := by
      intro hz
      rw [MemPool.partition, if_pos hz] at hp
      cases hp
    have hmin : ∀ c, c ∈ rest → s_min ≤ c := fun c hc => List.rel_of_sorted_cons hsorted c hc
    have hmod : max_memory - max_memory / s_min * s_min = max_memory % s_min := by
      have := Nat.div_add_mod max_memory s_min
      rw [Nat.mul_comm] at this
      omega
    have hlt : max_memory % s_min < s_min := Nat.mod_lt _ (Nat.pos_of_ne_zero hpos)
    obtain ⟨hstep, hnext⟩ := MemPool.partition_cons max_memory hmax s_min rest 0 hpos
      (Nat.zero_le _)
    simp only [Nat.zero_add, Nat.sub_zero] at hstep hnext
    have htail := MemPool.partition_starved max_memory hmax rest
      (max_memory / s_min * s_min) hnext (by
        intro c hc
        have := hmin c hc
        omega)
    rw [hstep, htail] at hp
    simp only [Option.map_some'] at hp
    injection hp with e
    refine ⟨s_min, rest, rfl, Nat.pos_of_ne_zero hpos, ?_, ?_, ?_, hmod, ?_⟩
    · exact hperm.subset (List.mem_cons_self _ _)
    · intro c hc
      rcases List.mem_cons.1 (hperm.symm.subset hc) with e1 | h1
      · rw [e1]
      · exact hmin c h1
    · rw [hpool, ← e]
      simp only [List.map_cons, List.map_map]
      congr 1
    · intro c hc
      have := hmin c hc
      omega

theorem MemPool.ctor_first_slab_takes_all_witness :
    (4096 : Nat) < U32 ∧ ([256, 16, 64] : List Nat) ≠ [] ∧
    MemPool.ctor 4096 4 [256, 16, 64] = MemPool.CtorResult.ok MemPool.samplePool ∧
    ∃ s_min rest, MemPool.sortSizes [256, 16, 64] = s_min :: rest ∧
      MemPool.samplePool.sub_pools_ =
        SubPool.ctor s_min (4096 / s_min) :: rest.map (fun c => SubPool.ctor c 0) :=
  ⟨by decide, by decide, MemPool.samplePool_ok,
    (MemPool.ctor_first_slab_takes_all 4096 4 [256, 16, 64] MemPool.samplePool (by decide)
      (by decide) MemPool.samplePool_ok).imp
      (fun _ h => h.imp (fun _ h2 => ⟨h2.1, h2.2.2.2.2.1⟩))⟩

/-! ## Unaligned pointers -/

/-- C19: `Deallocate` does not check chunk alignment.  On every well-formed
slab state, for every occupied chunk `i` and every `k` with
`0 < k < chunk_size` (which forces `chunk_size >= 2`), the address
`region.start + i * chunk_size + k` is not a multiple of `chunk_size` from the
region start, so it is none of the addresses `Allocate()` returns when
`chunk_size * chunk_count` fits in 32 bits; still `Deallocate` computes index
`i` for it, passes both assertions, clears the bit of chunk `i` and lowers
`unfreed_chunks` by one. -/
theorem SubPool.Deallocate_unaligned (s : SubPool) (h : s.WF) (i k : Nat)
    (hi : i < s.chunk_count) (hocc : s.used_chunks[i]? = some true)
    (hk0 : 0 < k) (hk : k < s.chunk_size) :
    2 ≤ s.chunk_size ∧
    (∀ j, j * s.chunk_size ≠ i * s.chunk_size + k) ∧
    (s.chunk_size * s.chunk_count ≤ U32 →
      ∀ j, j < s.chunk_count → s.chunkOffset j ≠ i * s.chunk_size + k) ∧
    s.ptrIndex ((i * s.chunk_size + k : Nat) : Int) = some i ∧
    (s.Deallocate (some ((i * s.chunk_size + k : Nat) : Int))).1 = DeallocStatus.ok ∧
    (∀ j, (s.Deallocate (some ((i * s.chunk_size + k : Nat) : Int))).2.used_chunks[j]? =
      if j = i then some false else s.used_chunks[j]?) ∧
    (s.Deallocate (some ((i * s.chunk_size + k : Nat) : Int))).2.unfreed_chunks + 1
      = s.unfreed_chunks := by
  have hpos : 0 < s.chunk_size := by omega
  have hne : ∀ j, j * s.chunk_size ≠ i * s.chunk_size + k := by
    intro j e
    have h1 : (j * s.chunk_size) % s.chunk_size = 0 := Nat.mul_mod_left _ _
    have h2 : (i * s.chunk_size + k) % s.chunk_size = k := by
      rw [Nat.add_comm, Nat.add_mul_mod_self_right]
      exact Nat.mod_eq_of_lt hk
    rw [e, h2] at h1
    omega
  have hidx : s.ptrIndex ((i * s.chunk_size + k : Nat) : Int) = some i := by
    have hiU : i < U32 := lt_trans hi h.count_lt
    unfold SubPool.ptrIndex
    rw [if_neg (by omega)]
    congr 1
    have h1 : Int.tdiv ((i * s.chunk_size + k : Nat) : Int) (s.chunk_size : Int) = (i : Int) := by
      rw [← Int.ofNat_tdiv]
      congr 1
      exact Nat.div_eq_of_lt_le (Nat.le_add_right _ _) (by rw [Nat.succ_mul]; omega)
    rw [h1]
    have h2 : ((i : Int) % (U32 : Int)) = ((i % U32 : Nat) : Int) := by
      norm_cast
    rw [h2, Nat.mod_eq_of_lt hiU]
    rfl
  have hnn : s.isNull (some ((i * s.chunk_size + k : Nat) : Int)) = false :=
    s.isNull_of_ne_zero _ (by omega)
  obtain ⟨hone, he⟩ := s.Deallocate_occupied h _ i hnn hidx hocc
  have hlen := Bitmap.lt_length_of_getElem? _ _ _ hocc
  refine ⟨by omega, hne, ?_, hidx, ?_, ?_, ?_⟩
  · intro hfit j hj
    have hlt : j * s.chunk_size < U32 :=
      calc j * s.chunk_size < s.chunk_count * s.chunk_size :=
            Nat.mul_lt_mul_of_pos_right hj hpos
        _ = s.chunk_size * s.chunk_count := Nat.mul_comm _ _
        _ ≤ U32 := hfit
    unfold SubPool.chunkOffset
    rw [Nat.mod_eq_of_lt hlt]
    exact hne j
  · rw [he]
  · intro j
    rw [he]
    exact Bitmap.getElem?_set _ _ _ hlen j
  · rw [he]
    exact hone.symm

theorem SubPool.Deallocate_unaligned_witness :
    SubPool.sample.WF ∧ 2 < SubPool.sample.chunk_count ∧
    SubPool.sample.used_chunks[2]? = some true ∧ 0 < 3 ∧ 3 < SubPool.sample.chunk_size ∧
    (SubPool.sample.Deallocate (some ((2 * SubPool.sample.chunk_size + 3 : Nat) : Int))).1
      = DeallocStatus.ok :=
  ⟨SubPool.sample_WF, by decide, by decide, by decide, by decide,
    (SubPool.Deallocate_unaligned SubPool.sample SubPool.sample_WF 2 3
      (by decide) (by decide) (by decide) (by decide)).2.2.2.2.1⟩

/-! ## The high-water mark -/

theorem Bitmap.count_le_of_bound (l : List Bool) :
    ∀ p, (∀ j, l[j]? = some true → j < p) → l.count true ≤ p := by
  induction l with
  | nil => intro p _; simp
  | cons b t ih =>
    intro p hb
    have ht : ∀ j, t[j]? = some true → j < p - 1 := by
      intro j hj
      have := hb (j + 1) (by rw [List.getElem?_cons_succ]; exact hj)
      omega
    have hcount := ih (p - 1) ht
    cases b with
    | false =>
      rw [List.count_cons_of_ne (by decide)]
      omega
    | true =>
      have h0 := hb 0 (by simp)
      rw [List.count_cons_self]
      omega

theorem Bitmap.count_eq_of_initial (l : List Bool) :
    ∀ i, (∀ j, j < i → l[j]? = some true) → (∀ j, l[j]? = some true → j < i) →
      l.count true = i := by
  induction l with
  | nil =>
    intro i hlow _
    cases i with
    | zero => simp
    | succ k =>
      have := hlow 0 (Nat.succ_pos k)
      simp at this
  | cons b t ih =>
    intro i hlow hup
    cases i with
    | zero => exact Nat.le_zero.1 (Bitmap.count_le_of_bound _ 0 hup)
    | succ k =>
      have hb : b = true := by
        have := hlow 0 (Nat.succ_pos k)
        simpa using this
      subst hb
      rw [List.count_cons_self]
      congr 1
      apply ih k
      · intro j hj
        have := hlow (j + 1) (by omega)
        rw [List.getElem?_cons_succ] at this
        exact this
      · intro j hj
        have := hup (j + 1) (by rw [List.getElem?_cons_succ]; exact hj)
        omega

/-- One returning call keeps three facts together: the slab is well formed,
`peak_usage` equals the largest value `unfreed_chunks` has taken so far, and
every occupied chunk lies below `peak_usage`. -/
theorem SubPool.step_peak_live (s t : SubPool) (m : Nat) (op : Op) (h : s.WF)
    (hm : s.peak_usage = m) (hb : ∀ j, s.used_chunks[j]? = some true → j < s.peak_usage)
    (hst : s.step op = some t) :
    t.WF ∧ t.peak_usage = max m t.unfreed_chunks ∧
    (∀ j, t.used_chunks[j]? = some true → j < t.peak_usage) := by
  have ht := s.step_eq_some op t hst
  have hwf : t.WF := by rw [ht]; exact s.after_WF h op
  have hlive : s.unfreed_chunks ≤ s.peak_usage := by
    rw [h.live_eq]; exact Bitmap.count_le_of_bound _ _ hb
  have same : t = s → t.WF ∧ t.peak_usage = max m t.unfreed_chunks ∧
      (∀ j, t.used_chunks[j]? = some true → j < t.peak_usage) := by
    intro e
    subst e
    exact ⟨hwf, by omega, hb⟩
  cases op with
  | alloc =>
    simp only [SubPool.after] at ht
    rcases s.Allocate_cases h with ⟨_, he⟩ | ⟨i, hi, hfi, hlow, he⟩
    · exact same (by rw [ht, he])
    · rw [he, s.take_eq h i hi hfi] at ht
      have hlen := Bitmap.lt_length_of_getElem? _ _ _ hfi
      have hile : i ≤ s.peak_usage := by
        cases i with
        | zero => exact Nat.zero_le _
        | succ k => exact hb k (hlow k (Nat.lt_succ_self k))
      have hbt : ∀ j, t.used_chunks[j]? = some true → j < t.peak_usage := by
        intro j hj
        rw [ht] at hj ⊢
        simp only at hj ⊢
        rw [Bitmap.getElem?_set _ _ _ hlen j] at hj
        by_cases hji : j = i
        · subst hji
          exact lt_of_lt_of_le (Nat.lt_succ_self _) (le_max_right _ _)
        · rw [if_neg hji] at hj
          exact lt_of_lt_of_le (hb j hj) (le_max_left _ _)
      have hlive_t : t.unfreed_chunks ≤ t.peak_usage := by
        rw [hwf.live_eq]; exact Bitmap.count_le_of_bound _ _ hbt
      refine ⟨hwf, ?_, hbt⟩
      have hpk : t.peak_usage = max s.peak_usage (i + 1) := by rw [ht]
      have hun : t.unfreed_chunks = s.unfreed_chunks + 1 := by rw [ht]
      rcases Nat.lt_or_ge i s.peak_usage with hlt | hge
      · have : max s.peak_usage (i + 1) = s.peak_usage := max_eq_left hlt
        rw [hpk, this] at hlive_t ⊢
        rw [← hm]
        exact (max_eq_left hlive_t).symm
      · have hieq : i = s.peak_usage := le_antisymm hile hge
        have hcnt : s.unfreed_chunks = i := by
          rw [h.live_eq]
          exact Bitmap.count_eq_of_initial _ i hlow (by rw [hieq]; exact hb)
        rw [hpk, hun, hcnt, ← hm, ← hieq]
  | dealloc p =>
    simp only [SubPool.after] at ht
    rcases s.Deallocate_cases h p with he | ⟨d, idx, _, _, _, hocc, hone, he⟩
    · exact same (by rw [ht, he])
    · rw [he] at ht
      have hlen := Bitmap.lt_length_of_getElem? _ _ _ hocc
      have hpk : t.peak_usage = s.peak_usage := by rw [ht]
      have hun : t.unfreed_chunks = s.unfreed_chunks - 1 := by rw [ht]
      refine ⟨hwf, by rw [hpk, hun, ← hm]; omega, ?_⟩
      intro j hj
      rw [hpk]
      rw [ht] at hj
      simp only at hj
      rw [Bitmap.getElem?_set _ _ _ hlen j] at hj
      by_cases hji : j = idx
      · rw [if_pos hji] at hj
        cases hj
      · rw [if_neg hji] at hj
        exact hb j hj

theorem SubPool.runMax_peak_live :
    ∀ (ops : List Op) (s t : SubPool) (m m2 : Nat), s.WF → s.peak_usage = m →
      (∀ j, s.used_chunks[j]? = some true → j < s.peak_usage) →
      s.runMax m ops = some (t, m2) →
      t.WF ∧ t.peak_usage = m2 ∧ (∀ j, t.used_chunks[j]? = some true → j < t.peak_usage) ∧
      s.run ops = some t := by
  intro ops
  induction ops with
  | nil =>
    intro s t m m2 h hm hb hrun
    simp only [SubPool.runMax] at hrun
    injection hrun with e
    injection e with e1 e2
    subst e1
    subst e2
    exact ⟨h, hm, hb, rfl⟩
  | cons op ops ih =>
    intro s t m m2 h hm hb hrun
    simp only [SubPool.runMax] at hrun
    cases hst : s.step op with
    | none => rw [hst] at hrun; cases hrun
    | some u =>
      rw [hst] at hrun
      simp only at hrun
      obtain ⟨hu1, hu2, hu3⟩ := s.step_peak_live u m op h hm hb hst
      obtain ⟨r1, r2, r3, r4⟩ := ih u t _ m2 hu1 hu2 hu3 hrun
      refine ⟨r1, r2, r3, ?_⟩
      simp only [SubPool.run, hst]
      exact r4

/-- Every sequence of returning calls has a largest value of `unfreed_chunks`:
`runMax` succeeds whenever `run` does, with the same final slab. -/
theorem SubPool.runMax_of_run :
    ∀ (ops : List Op) (s t : SubPool) (m : Nat), s.run ops = some t →
      ∃ m2, s.runMax m ops = some (t, m2) := by
  intro ops
  induction ops with
  | nil =>
    intro s t m hrun
    simp only [SubPool.run] at hrun
    injection hrun with e
    exact ⟨m, by rw [SubPool.runMax, e]⟩
  | cons op ops ih =>
    intro s t m hrun
    simp only [SubPool.run] at hrun
    cases hst : s.step op with
    | none => rw [hst] at hrun; cases hrun
    | some u =>
      rw [hst] at hrun
      obtain ⟨m2, h2⟩ := ih u t (max m u.unfreed_chunks) hrun
      exact ⟨m2, by simp only [SubPool.runMax, hst]; exact h2⟩

/-- C18: along every finite sequence of `Allocate` calls and assertion-passing
`Deallocate` calls on a freshly constructed slab, every occupied chunk has an
index below `peak_usage`, and `peak_usage` equals the largest value
`unfreed_chunks` has taken at any point of the sequence (`0` at construction,
then the value after each call). -/
theorem SubPool.peak_usage_eq_max_live (c n : Nat) (hn : n < U32) (ops : List Op)
    (s : SubPool) (m : Nat)
    (hrun : (SubPool.ctor c n).runMax (SubPool.ctor c n).unfreed_chunks ops = some (s, m)) :
    (SubPool.ctor c n).run ops = some s ∧
    (∀ i, s.used_chunks[i]? = some true → i < s.peak_usage) ∧
    s.peak_usage = m ∧
    s.unfreed_chunks ≤ s.peak_usage := by
  obtain ⟨h1, h2, h3, h4⟩ := SubPool.runMax_peak_live ops (SubPool.ctor c n) s 0 m
    (SubPool.ctor_WF c n hn) rfl (by
      intro j hj
      simp [SubPool.ctor, List.getElem?_replicate] at hj) hrun
  refine ⟨h4, h3, h2, ?_⟩
  rw [h1.live_eq]
  exact Bitmap.count_le_of_bound _ _ h3

theorem SubPool.peak_usage_eq_max_live_witness :
    (3 : Nat) < U32 ∧
    (SubPool.ctor 4 3).runMax (SubPool.ctor 4 3).unfreed_chunks SubPool.sampleOps
      = some (SubPool.sampleRun, 2) ∧
    SubPool.sampleRun.peak_usage = 2 :=
  ⟨by decide, by decide,
    (SubPool.peak_usage_eq_max_live 4 3 (by decide) SubPool.sampleOps SubPool.sampleRun 2
      (by decide)).2.2.1⟩
